import Mathlib

/-!
Verification development for the ChatLab streaming import pipeline.

The definitions below are a shallow embedding of the TypeScript sources:
* `src/electron/main/worker/workerManager.ts` — the worker coordination
  layer (pending-request map, timeout, worker-exit handling) and the
  worker-side stream import engine (`streamImport`, `streamParseFileInfo`).
* `src/electron/main/parser/formats/shuakami-qq-preprocessor.ts` — the
  size-triggered preprocessor (`preprocessQQJson`, `cleanupTempFile`).

JavaScript values that may be `undefined`/`null`/`NaN` are embedded as
`Option`; JS string falsiness (`!s` true for `undefined`, `null`, `""`)
is `jsFalsyStr`.  SQLite tables are lists of row structures; statements
(`INSERT OR IGNORE`, `UPDATE ... WHERE end_ts IS NULL`, ...) are list
operations on a `DbState`.  A parser run is a list of callback events
(`onMeta` / `onMembers` / `onMessageBatch` / progress), plus a `fail`
event modelling an exception (parse or storage failure) thrown while
the importing engine is consuming callbacks.
-/

namespace ChatLab

/-- `ParsedMeta` record emitted by a parser (workerManager.ts `ParsedMeta`). -/
structure ParsedMeta where
  name : String
  platform : String
  mtype : String
deriving Repr, DecidableEq

/-- `ParsedMember`: `platformId`, display `name`, optional `nickname`. -/
structure ParsedMember where
  platformId : String
  name : String
  nickname : Option String
deriving Repr, DecidableEq

/-- `ParsedMessage`.  Fields that the source checks for
`undefined`/`null`/`NaN` (`senderPlatformId`, `senderName`, `timestamp`,
`type`) are `Option`; `none` stands for a missing/`NaN` value. -/
structure ParsedMessage where
  senderPlatformId : Option String
  senderName : Option String
  timestamp : Option Int
  mtype : Option Int
  content : Option String
deriving Repr, DecidableEq

/-- JS falsiness of a possibly-missing string: `!s` is true for
`undefined`, `null` and the empty string. -/
def jsFalsyStr : Option String → Bool
  | none => true
  | some s => s = ""

/-- JS `a || b` on possibly-missing strings (used for
`msg.senderName || msg.senderPlatformId`). -/
def jsOrStr (a b : Option String) : Option String :=
  if jsFalsyStr a then b else a

/-- JS `a || null` (used for `member.nickname || null`). -/
def jsOrNull (a : Option String) : Option String :=
  if jsFalsyStr a then none else a

/-- Row of the `member` table
(`id INTEGER PRIMARY KEY AUTOINCREMENT, platform_id TEXT UNIQUE, name, nickname`). -/
structure MemberRow where
  id : Nat
  platform_id : String
  name : String
  nickname : Option String
deriving Repr, DecidableEq

/-- Row of the `member_name_history` table
(`member_id, name, start_ts, end_ts` with `end_ts` nullable). -/
structure HistoryRow where
  member_id : Nat
  name : String
  start_ts : Int
  end_ts : Option Int
deriving Repr, DecidableEq

/-- Row of the `message` table (`sender_id, ts, type, content`). -/
structure MessageRow where
  sender_id : Nat
  ts : Int
  mtype : Int
  content : Option String
deriving Repr, DecidableEq

/-- Row of the `meta` table (ignoring `imported_at`, a wall-clock value). -/
structure MetaRow where
  name : String
  platform : String
  mtype : String
deriving Repr, DecidableEq

/-- The tables of one session store created by `createDatabase`.
`nextMemberId` models the `AUTOINCREMENT` counter of `member.id`
(SQLite starts at 1). -/
structure DbState where
  metaRows : List MetaRow
  members : List MemberRow
  history : List HistoryRow
  messages : List MessageRow
  nextMemberId : Nat
deriving Repr, DecidableEq

/-- Freshly created store: empty tables. -/
def DbState.empty : DbState := ⟨[], [], [], [], 1⟩

/-- `INSERT INTO meta ... VALUES (?,?,?,?)`. -/
def DbState.insertMeta (db : DbState) (m : MetaRow) : DbState :=
  { db with metaRows := db.metaRows ++ [m] }

/-- `INSERT OR IGNORE INTO member (platform_id, name, nickname) VALUES (?,?,?)`:
a row is appended only when no row with this `platform_id` exists
(the column is `UNIQUE`). -/
def DbState.insertOrIgnoreMember (db : DbState) (pid name : String)
    (nick : Option String) : DbState :=
  if db.members.any (fun r => r.platform_id = pid) then db
  else
    { db with
      members := db.members ++ [⟨db.nextMemberId, pid, name, nick⟩],
      nextMemberId := db.nextMemberId + 1 }

/-- `SELECT id FROM member WHERE platform_id = ?`. -/
def DbState.getMemberId (db : DbState) (pid : String) : Option Nat :=
  (db.members.find? (fun r => r.platform_id = pid)).map (fun r => r.id)

/-- `INSERT INTO message (sender_id, ts, type, content) VALUES (?,?,?,?)`. -/
def DbState.insertMessage (db : DbState) (sid : Nat) (ts ty : Int)
    (content : Option String) : DbState :=
  { db with messages := db.messages ++ [⟨sid, ts, ty, content⟩] }

/-- `INSERT INTO member_name_history (member_id, name, start_ts, end_ts)
VALUES (?,?,?,?)`. -/
def DbState.insertNameHistory (db : DbState) (mid : Nat) (name : String)
    (startTs : Int) (endTs : Option Int) : DbState :=
  { db with history := db.history ++ [⟨mid, name, startTs, endTs⟩] }

/-- `UPDATE member_name_history SET end_ts = ? WHERE member_id = ? AND
end_ts IS NULL`. -/
def DbState.updateNameHistoryEndTs (db : DbState) (ts : Int) (mid : Nat) :
    DbState :=
  { db with
    history := db.history.map (fun r =>
      if r.member_id = mid ∧ r.end_ts = none then { r with end_ts := some ts }
      else r) }

/-- `UPDATE member SET name = ? WHERE platform_id = ?`. -/
def DbState.updateMemberName (db : DbState) (name pid : String) : DbState :=
  { db with
    members := db.members.map (fun r =>
      if r.platform_id = pid then { r with name := name } else r) }

/-- Lookup in an insertion-ordered association list (JS `Map.get`). -/
def alookup {α : Type} (m : List (String × α)) (k : String) : Option α :=
  (m.find? (fun p => p.1 = k)).map (fun p => p.2)

/-- JS `Map.set`: update in place if the key is present (keeping list
order), else append. -/
def aset {α : Type} (m : List (String × α)) (k : String) (v : α) :
    List (String × α) :=
  if m.any (fun p => p.1 = k) then
    m.map (fun p => if p.1 = k then (k, v) else p)
  else m ++ [(k, v)]

/-- Entry of the in-memory `nicknameTracker` map. -/
structure NickTracker where
  currentName : String
  lastSeenTs : Int
deriving Repr, DecidableEq

/-- In-flight state of one `streamImport` run: the open-transaction view
of the store, the `memberIdMap`, the `nicknameTracker`, the
`metaInserted` flag, and the `console.warn` lines emitted for skipped
records. -/
structure ImportState where
  db : DbState
  memberIdMap : List (String × Nat)
  nicknameTracker : List (String × NickTracker)
  metaInserted : Bool
  warnLog : List String
deriving Repr, DecidableEq

/-- State at `BEGIN TRANSACTION`. -/
def ImportState.init : ImportState := ⟨DbState.empty, [], [], false, []⟩

/-- The three validation checks at the top of the `onMessageBatch`
loop, in source order; `some w` is the `console.warn` text of the check
that fails first. -/
def validationError (msg : ParsedMessage) : Option String :=
  if jsFalsyStr msg.senderPlatformId || jsFalsyStr msg.senderName then
    some "skip: missing sender info"
  else if msg.timestamp.isNone then
    some "skip: missing timestamp"
  else if msg.mtype.isNone then
    some "skip: missing message type"
  else none

/-- A message passing all three checks. -/
def isValidMessage (msg : ParsedMessage) : Bool :=
  (validationError msg).isNone

/-- The "ensure the member exists" block of the `onMessageBatch` loop:
`if (!memberIdMap.has(pid)) { insertMember.run(...); row =
getMemberId.get(pid); if (row) memberIdMap.set(pid, row.id) }`. -/
def ensureMember (st : ImportState) (pid memberName : String) : ImportState :=
  if (alookup st.memberIdMap pid).isSome then st
  else
    let db := st.db.insertOrIgnoreMember pid memberName none
    match db.getMemberId pid with
    | some rid =>
        { st with db := db, memberIdMap := aset st.memberIdMap pid rid }
    | none => { st with db := db }

/-- Body of the `for (const msg of messages)` loop of
`streamImport.onMessageBatch`. -/
def processMessage (st : ImportState) (msg : ParsedMessage) : ImportState :=
  match validationError msg with
  | some w => { st with warnLog := st.warnLog ++ [w] }
  | none =>
    let pid := msg.senderPlatformId.getD ""
    let ts := msg.timestamp.getD 0
    let ty := msg.mtype.getD 0
    let senderName := (jsOrStr msg.senderName msg.senderPlatformId).getD ""
    let st1 := ensureMember st pid senderName
    match alookup st1.memberIdMap pid with
    | none => st1
    | some senderId =>
      let db := st1.db.insertMessage senderId ts ty msg.content
      match alookup st1.nicknameTracker pid with
      | none =>
        { st1 with
          db := db.insertNameHistory senderId senderName ts none,
          nicknameTracker := aset st1.nicknameTracker pid ⟨senderName, ts⟩ }
      | some tracker =>
        if tracker.currentName ≠ senderName then
          { st1 with
            db := (db.updateNameHistoryEndTs ts senderId).insertNameHistory
              senderId senderName ts none,
            nicknameTracker := aset st1.nicknameTracker pid ⟨senderName, ts⟩ }
        else
          { st1 with
            db := db,
            nicknameTracker :=
              aset st1.nicknameTracker pid ⟨tracker.currentName, ts⟩ }

/-- Body of the `for (const member of members)` loop of
`streamImport.onMembers`. -/
def processMember (st : ImportState) (m : ParsedMember) : ImportState :=
  let db := st.db.insertOrIgnoreMember m.platformId m.name (jsOrNull m.nickname)
  match db.getMemberId m.platformId with
  | some rid =>
      { st with db := db, memberIdMap := aset st.memberIdMap m.platformId rid }
  | none => { st with db := db }

/-- One callback delivered by `streamParseFile` to the import engine.
`fail e` stands for an exception (structural parse failure, or an
injected storage failure) raised while callbacks are consumed. -/
inductive ParseEvent
  | meta (m : ParsedMeta)
  | members (ms : List ParsedMember)
  | messageBatch (msgs : List ParsedMessage)
  | progress
  | fail (err : String)
deriving Repr, DecidableEq

/-- Effect of one non-throwing callback on the import state. -/
def applyEvent (st : ImportState) : ParseEvent → ImportState
  | .meta m =>
    if st.metaInserted then st
    else
      { st with
        db := st.db.insertMeta ⟨m.name, m.platform, m.mtype⟩,
        metaInserted := true }
  | .members ms => ms.foldl processMember st
  | .messageBatch msgs => msgs.foldl processMessage st
  | .progress => st
  | .fail _ => st

/-- Consume the parser's callbacks inside the open transaction; a `fail`
event aborts the run with its error (JS `throw`). -/
def runEvents (st : ImportState) : List ParseEvent → ImportState × Option String
  | [] => (st, none)
  | .fail e :: _ => (st, some e)
  | ev :: rest => runEvents (applyEvent st ev) rest

/-- The loop after all batches: `for ([platformId, tracker] of
nicknameTracker) updateMemberName.run(tracker.currentName, platformId)`. -/
def finalizeMemberNames (st : ImportState) : ImportState :=
  { st with
    db := st.nicknameTracker.foldl
      (fun db p => db.updateMemberName p.2.currentName p.1) st.db }

/-- `StreamImportResult` from workerManager.ts. -/
structure StreamImportResult where
  success : Bool
  sessionId : Option String
  error : Option String
deriving Repr, DecidableEq

/-- Observable outcome of one `streamImport` call: the returned result,
whether a store was created at all, whether its database file is still
on disk at the end, the committed store (if the transaction committed),
and the skip-warning log. -/
structure ImportRun where
  result : StreamImportResult
  storeCreated : Bool
  dbFileExists : Bool
  committedDb : Option DbState
  warnLog : List String
deriving Repr, DecidableEq

/-- Error-text marker prepended when preprocessing fails
(source: `` `预处理失败: ${...}` ``). -/
def preFailTag : String := "preprocess failed: "

/-- `streamImport` from the worker module.  `pre` is the outcome of the
(possibly absent) preprocessing stage: `none` when no preprocessing is
needed, `some (.ok ())` when it succeeded, `some (.error e)` when
`preprocessor.preprocess` threw `e`.  `events` is the stream of parser
callbacks.  On a callback exception the transaction is rolled back and
the database file deleted; on success the transaction commits. -/
def streamImportModel (pre : Option (Except String Unit))
    (events : List ParseEvent) : ImportRun :=
  match pre with
  | some (Except.error e) =>
    { result := ⟨false, none, some (preFailTag ++ e)⟩,
      storeCreated := false, dbFileExists := false,
      committedDb := none, warnLog := [] }
  | _ =>
    match runEvents ImportState.init events with
    | (st, some e) =>
      { result := ⟨false, none, some e⟩, storeCreated := true,
        dbFileExists := false, committedDb := none, warnLog := st.warnLog }
    | (st, none) =>
      let fin := finalizeMemberNames st
      { result := ⟨true, some "chat_session", none⟩, storeCreated := true,
        dbFileExists := true, committedDb := some fin.db,
        warnLog := fin.warnLog }

/-! ### The no-write preview `streamParseFileInfo` -/

/-- Accumulator of `streamParseFileInfo`: `name`/`platform` from meta,
`messageCount += messages.length` per batch, and the `memberSet`
(`Set<string>`, to which raw — possibly `undefined` — sender ids are
added). -/
structure FileInfoState where
  name : String
  platform : String
  messageCount : Nat
  memberSet : List (Option String)
deriving Repr, DecidableEq

/-- `Set.add`. -/
def setAdd (s : List (Option String)) (x : Option String) :
    List (Option String) :=
  if s.any (fun y => y = x) then s else s ++ [x]

/-- Effect of one callback on the preview accumulator. -/
def previewStep (st : FileInfoState) : ParseEvent → FileInfoState
  | .meta m => { st with name := m.name, platform := m.platform }
  | .members ms =>
    { st with
      memberSet := ms.foldl (fun s m => setAdd s (some m.platformId)) st.memberSet }
  | .messageBatch msgs =>
    { st with
      messageCount := st.messageCount + msgs.length,
      memberSet := msgs.foldl (fun s m => setAdd s m.senderPlatformId) st.memberSet }
  | .progress => st
  | .fail _ => st

/-- Initial preview accumulator (`name = '未知群聊'`, modelled as an
ASCII placeholder). -/
def FileInfoState.init : FileInfoState := ⟨"unknown chat", "", 0, []⟩

/-- `streamParseFileInfo`'s parse loop; a `fail` event propagates the
parse error (the function throws). -/
def runPreview (st : FileInfoState) : List ParseEvent → FileInfoState × Option String
  | [] => (st, none)
  | .fail e :: _ => (st, some e)
  | ev :: rest => runPreview (previewStep st ev) rest

/-! ### Derived views of an event stream -/

/-- All messages delivered across all batches, in delivery order. -/
def eventMessages (events : List ParseEvent) : List ParsedMessage :=
  events.foldr
    (fun e acc => match e with | .messageBatch ms => ms ++ acc | _ => acc) []

/-- Whether the stream contains a thrown exception. -/
def hasFail (events : List ParseEvent) : Bool :=
  events.any (fun e => match e with | .fail _ => true | _ => false)

/-- The messages that pass the `onMessageBatch` validity check. -/
def validMessages (events : List ParseEvent) : List ParsedMessage :=
  (eventMessages events).filter (fun m => isValidMessage m)

/-- Sender platform ids of the valid messages. -/
def validSenders (events : List ParseEvent) : List String :=
  (validMessages events).filterMap (fun m => m.senderPlatformId)

/-- Timestamps of one member's valid messages, in delivery order. -/
def memberTs (events : List ParseEvent) (pid : String) : List Int :=
  (validMessages events).filterMap
    (fun m => if m.senderPlatformId = some pid then m.timestamp else none)

/-- A list of timestamps is non-decreasing. -/
def nondecreasingB : List Int → Bool
  | [] => true
  | [_] => true
  | a :: b :: rest => decide (a ≤ b) && nondecreasingB (b :: rest)

/-- Every member's valid messages arrive with non-decreasing
timestamps. -/
def perMemberMonoB (events : List ParseEvent) : Bool :=
  (validSenders events).all (fun pid => nondecreasingB (memberTs events pid))

/-! ### Views of the nickname-history ledger -/

/-- `member_name_history` rows of one member, in insertion order
(`ORDER BY id`). -/
def rowsOfMember (db : DbState) (mid : Nat) : List HistoryRow :=
  db.history.filter (fun r => r.member_id = mid)

/-- Number of rows with `end_ts IS NULL`. -/
def openCount (rows : List HistoryRow) : Nat :=
  rows.countP (fun r => r.end_ts = none)

/-- Consecutive rows meet: each row's `end_ts` equals the next row's
`start_ts` (no gap, no overlap). -/
def chainedB : List HistoryRow → Bool
  | [] => true
  | [_] => true
  | a :: b :: rest => decide (a.end_ts = some b.start_ts) && chainedB (b :: rest)

/-- `start_ts` values are non-decreasing. -/
def startsSortedB : List HistoryRow → Bool
  | [] => true
  | [_] => true
  | a :: b :: rest => decide (a.start_ts ≤ b.start_ts) && startsSortedB (b :: rest)

/-- Stable insertion (before the first row with a `start_ts` that is not
smaller) used by `sortByStart`. -/
def insertByStart (r : HistoryRow) : List HistoryRow → List HistoryRow
  | [] => [r]
  | x :: xs =>
    if x.start_ts < r.start_ts then x :: insertByStart r xs else r :: x :: xs

/-- Stable sort of ledger rows by `start_ts`. -/
def sortByStart (rows : List HistoryRow) : List HistoryRow :=
  rows.foldr insertByStart []

/-- The claim's contiguity reading: ordered by `start_ts`, consecutive
rows meet exactly. -/
def contiguousB (rows : List HistoryRow) : Bool :=
  chainedB (sortByStart rows)

/-! ### Worker coordination protocol (workerManager.ts, main side) -/

/-- Error text of a coordination timeout
(`` `Worker request timeout: ${type}` ``). -/
def timeoutErrorText : String := "Worker request timeout"

/-- Error text used by the `worker.on('exit')` handler. -/
def workerExitedErrorText : String := "Worker exited unexpectedly"

/-- How one pending request was settled. -/
inductive Settlement
  | resolved (res : String)
  | rejected (err : String)
deriving Repr, DecidableEq

/-- Observable events touching one in-flight request, in the order the
main-thread event loop serialises them: a progress-tagged worker
message, the terminal worker message, the request's timeout timer
firing, or the worker thread exiting. -/
inductive CoordEvent
  | progress
  | terminal (ok : Bool) (res : String)
  | timerFire
  | workerExit
deriving Repr, DecidableEq

/-- State of one request: whether its entry is still in
`pendingRequests`, every resolve/reject performed on its promise, and
how many times its progress callback ran. -/
structure RequestState where
  pending : Bool
  settlements : List Settlement
  progressCalls : Nat
deriving Repr, DecidableEq

/-- State right after `pendingRequests.set(id, ...)`. -/
def RequestState.init : RequestState := ⟨true, [], 0⟩

/-- One event against one request, following the source handlers:
the `worker.on('message')` handler returns early when the id is not
pending, forwards progress without deleting the entry, and deletes the
entry before resolving/rejecting on a terminal message; the timer
rejects only `if (pendingRequests.has(id))`; the exit handler rejects
and deletes every pending entry. -/
def coordStep (st : RequestState) : CoordEvent → RequestState
  | .progress =>
    if st.pending then { st with progressCalls := st.progressCalls + 1 } else st
  | .terminal ok res =>
    if st.pending then
      { pending := false,
        settlements := st.settlements ++
          [if ok then Settlement.resolved res else Settlement.rejected res],
        progressCalls := st.progressCalls }
    else st
  | .timerFire =>
    if st.pending then
      { pending := false,
        settlements := st.settlements ++ [Settlement.rejected timeoutErrorText],
        progressCalls := st.progressCalls }
    else st
  | .workerExit =>
    if st.pending then
      { pending := false,
        settlements := st.settlements ++ [Settlement.rejected workerExitedErrorText],
        progressCalls := st.progressCalls }
    else st

/-- Life of one request under an arbitrary interleaving of events. -/
def runCoord (events : List CoordEvent) : RequestState :=
  events.foldl coordStep RequestState.init

/-- Whole-map view for the exit handler: the pending correlation ids and
the log of rejections issued so far. -/
structure ManagerState where
  pendingIds : List String
  rejectionLog : List (String × String)
deriving Repr, DecidableEq

/-- The `worker.on('exit')` loop: `for ([id, pending] of
pendingRequests) { pending.reject(new Error('Worker exited
unexpectedly')); pendingRequests.delete(id) }`. -/
def rejectAllPending (st : ManagerState) : ManagerState :=
  st.pendingIds.foldl
    (fun acc i =>
      { pendingIds := acc.pendingIds.filter (fun j => ¬(j = i)),
        rejectionLog := acc.rejectionLog ++ [(i, workerExitedErrorText)] })
    st

/-! ### Preprocessor and filesystem (shuakami-qq-preprocessor.ts) -/

/-- Filesystem model: the set of existing paths (as a list without
semantic duplicates — deletion removes the path entirely) and the paths
whose deletion raises at the OS level. -/
structure Fs where
  files : List String
  unlinkFails : List String
deriving Repr, DecidableEq

/-- `fs.existsSync`. -/
def Fs.existsSync (fs : Fs) (p : String) : Bool :=
  fs.files.any (fun q => q = p)

/-- `fs.unlinkSync`: raises for paths in `unlinkFails`, otherwise
removes the path. -/
def Fs.unlinkSync (fs : Fs) (p : String) : Except String Fs :=
  if fs.unlinkFails.any (fun q => q = p) then Except.error "unlink failed"
  else Except.ok { fs with files := fs.files.filter (fun q => ¬(q = p)) }

/-- `needle` is a prefix of `hay` (character-wise). -/
def charsStartWith (hay needle : List Char) : Bool :=
  match needle with
  | [] => true
  | n :: ns =>
    match hay with
    | [] => false
    | h :: hs => h = n && charsStartWith hs ns

/-- `needle` occurs somewhere inside `hay` (character-wise). -/
def charsContain (hay needle : List Char) : Bool :=
  charsStartWith hay needle ||
    match hay with
    | [] => false
    | _ :: hs => charsContain hs needle

/-- JS `String.prototype.includes`: substring containment. -/
def strIncludes (s sub : String) : Bool :=
  charsContain s.toList sub.toList

/-- `path.join(os.tmpdir(), 'chatlab')`; `osTmpDir` is the `os.tmpdir()`
value of the running process. -/
def getTempDir (osTmpDir : String) : String := osTmpDir ++ "/chatlab"

/-- The spec's safety notion, written from its words: the path lies
under the designated temp directory (it extends the directory path past
a path separator). -/
def liesUnderDir (dir p : String) : Bool :=
  charsStartWith p.toList (dir ++ "/").toList

/-- Body of `cleanupTempFile`'s `try` block:
`if (fs.existsSync(filePath) && filePath.includes(getTempDir()))
fs.unlinkSync(filePath)`. -/
def cleanupTempFileBody (osTmpDir : String) (fs : Fs) (filePath : String) :
    Except String Fs :=
  if fs.existsSync filePath && strIncludes filePath (getTempDir osTmpDir) then
    fs.unlinkSync filePath
  else Except.ok fs

/-- `cleanupTempFile`: the `try`/`catch` around the body; the result is
`Except` so that a raise would be observable — the `catch` swallows
every error and returns with the filesystem unchanged. -/
def cleanupTempFile (osTmpDir : String) (fs : Fs) (filePath : String) :
    Except String Fs :=
  match cleanupTempFileBody osTmpDir fs filePath with
  | Except.ok fs2 => Except.ok fs2
  | Except.error _ => Except.ok fs

/-- The `finally` block of `streamImport`: when a temp file was created,
run the preprocessor's cleanup; under JS semantics an exception thrown
inside `finally` would replace the function's return value with that
failure. -/
def importWithCleanup (osTmpDir : String) (fs : Fs)
    (tempFilePath : Option String) (pre : Option (Except String Unit))
    (events : List ParseEvent) : ImportRun × Fs :=
  let r := streamImportModel pre events
  match tempFilePath with
  | none => (r, fs)
  | some p =>
    match cleanupTempFile osTmpDir fs p with
    | Except.ok fs2 => (r, fs2)
    | Except.error e => ({ r with result := ⟨false, none, some e⟩ }, fs)

/-- One element produced by the preprocessor's streaming pipeline:
a message record successfully slimmed and appended to the output, or an
I/O / structural-parse error raised by the read-parse chain. -/
inductive PreItem
  | record
  | ioError (e : String)
deriving Repr, DecidableEq

/-- Outcome of `preprocessQQJson`: the resolved output path or the
propagated error, together with the filesystem afterwards. -/
structure PreprocessOutcome where
  outcome : Except String String
  fs : Fs
deriving Repr

/-- The pipeline event loop: records stream to the output file; the
first error destroys the write stream, deletes the partially-written
output file and rejects with that error; exhausting the input finishes
the file and resolves with the output path. -/
def runPreprocessLoop (outputPath : String) (fs : Fs) :
    List PreItem → PreprocessOutcome
  | [] => ⟨Except.ok outputPath, fs⟩
  | PreItem.record :: rest => runPreprocessLoop outputPath fs rest
  | PreItem.ioError e :: _ =>
    ⟨Except.error e,
      if fs.existsSync outputPath then
        { fs with files := fs.files.filter (fun q => ¬(q = outputPath)) }
      else fs⟩

/-- `preprocessQQJson`: the output file is created inside the temp
directory, then the streaming pipeline runs over the input. -/
def preprocessQQJson (osTmpDir : String) (fs : Fs) (outputFilename : String)
    (items : List PreItem) : PreprocessOutcome :=
  let outputPath := getTempDir osTmpDir ++ "/" ++ outputFilename
  let fs1 :=
    if fs.existsSync outputPath then fs
    else { fs with files := fs.files ++ [outputPath] }
  runPreprocessLoop outputPath fs1 items

/-! ### Basic lemmas about the association-list maps -/

theorem alookup_nil {α : Type} (q : String) : alookup ([] : List (String × α)) q = none :=
  rfl

theorem alookup_cons {α : Type} (p : String × α) (rest : List (String × α)) (q : String) :
    alookup (p :: rest) q = if p.1 = q then some p.2 else alookup rest q := by
  unfold alookup
  by_cases h : p.1 = q
  · rw [List.find?_cons_of_pos _ (by simpa using h), if_pos h]
    rfl
  · rw [List.find?_cons_of_neg _ (by simpa using h), if_neg h]

theorem alookup_isSome_iff_any {α : Type} (m : List (String × α)) (q : String) :
    (alookup m q).isSome = m.any (fun p => p.1 = q) := by
  induction m with
  | nil => rfl
  | cons p rest ih =>
    rw [alookup_cons]
    by_cases h : p.1 = q
    · simp [h]
    · simp [h, ih]

theorem alookup_map_overwrite {α : Type} (k : String) (v : α) :
    ∀ m : List (String × α), m.any (fun p => p.1 = k) = true →
      alookup (m.map (fun p => if p.1 = k then (k, v) else p)) k = some v := by
  intro m
  induction m with
  | nil => intro h; simp at h
  | cons p rest ih =>
    intro h
    simp only [List.map_cons]
    rw [alookup_cons]
    by_cases hp : p.1 = k
    · simp [hp]
    · rw [if_neg (by simp [hp])]
      simp only [List.any_cons, Bool.or_eq_true, decide_eq_true_eq] at h
      exact ih (by simpa using h.resolve_left hp)

theorem alookup_append_single {α : Type} (k : String) (v : α) :
    ∀ m : List (String × α), alookup (m ++ [(k, v)]) k = (alookup m k).getD v := by
  intro m
  induction m with
  | nil => simpa using alookup_cons (k, v) [] k
  | cons p rest ih =>
    rw [List.cons_append, alookup_cons, alookup_cons]
    by_cases hp : p.1 = k
    · rw [if_pos hp, if_pos hp]; rfl
    · rw [if_neg hp, if_neg hp]; exact ih

theorem alookup_aset_self {α : Type} (m : List (String × α)) (k : String) (v : α) :
    alookup (aset m k v) k = some v := by
  unfold aset
  split
  · exact alookup_map_overwrite k v m (by assumption)
  · rename_i h
    rw [alookup_append_single]
    have : alookup m k = none := by
      have hs := alookup_isSome_iff_any m k
      rw [Bool.eq_false_iff.mpr h] at hs
      exact Option.not_isSome_iff_eq_none.mp (by simp [hs])
    rw [this]
    rfl

theorem alookup_map_overwrite_ne {α : Type} (k q : String) (v : α) (hne : q ≠ k) :
    ∀ m : List (String × α),
      alookup (m.map (fun p => if p.1 = k then (k, v) else p)) q = alookup m q := by
  intro m
  induction m with
  | nil => rfl
  | cons p rest ih =>
    simp only [List.map_cons]
    rw [alookup_cons, alookup_cons]
    by_cases hk : p.1 = k
    · rw [if_pos hk]
      have h1 : ¬((k, v).1 = q) := fun hh => hne hh.symm
      have h2 : ¬(p.1 = q) := by rw [hk]; exact fun hh => hne hh.symm
      rw [if_neg h1, if_neg h2]
      exact ih
    · rw [if_neg hk]
      by_cases hq : p.1 = q
      · rw [if_pos hq, if_pos hq]
      · rw [if_neg hq, if_neg hq]
        exact ih

theorem alookup_append_single_ne {α : Type} (k q : String) (v : α) (hne : q ≠ k) :
    ∀ m : List (String × α), alookup (m ++ [(k, v)]) q = alookup m q := by
  intro m
  induction m with
  | nil =>
    rw [List.nil_append, alookup_cons, if_neg (fun hh : (k, v).1 = q => hne hh.symm)]
  | cons p rest ih =>
    rw [List.cons_append, alookup_cons, alookup_cons]
    by_cases hq : p.1 = q
    · rw [if_pos hq, if_pos hq]
    · rw [if_neg hq, if_neg hq]
      exact ih

theorem alookup_aset_ne {α : Type} (m : List (String × α)) (k q : String) (v : α)
    (hne : q ≠ k) : alookup (aset m k v) q = alookup m q := by
  unfold aset
  split
  · exact alookup_map_overwrite_ne k q v hne m
  · exact alookup_append_single_ne k q v hne m

theorem alookup_aset_isSome {α : Type} (m : List (String × α)) (k q : String) (v : α)
    (h : (alookup m q).isSome = true) : (alookup (aset m k v) q).isSome = true := by
  by_cases hq : q = k
  · subst hq; rw [alookup_aset_self]; rfl
  · rw [alookup_aset_ne m k q v hq]; exact h

/-! ### C10 — cleanup is total and cannot flip a successful import -/

/-- C10: the preprocessor's cleanup never raises: for every filesystem
state and path — a nonexistent file, or a file whose deletion fails at
the OS level — `cleanupTempFile` returns normally (`Except.ok`); hence
the `finally` block of `streamImport` never replaces the import's result,
whatever that result was. -/
theorem cleanupTempFile_ok (osTmpDir : String) (fs : Fs) (filePath : String) :
    ∃ fs2, cleanupTempFile osTmpDir fs filePath = Except.ok fs2 := by
  unfold cleanupTempFile
  cases cleanupTempFileBody osTmpDir fs filePath with
  | ok fs2 => exact ⟨fs2, rfl⟩
  | error e => exact ⟨fs, rfl⟩

theorem cleanup_total_and_preserves_result (osTmpDir : String) (fs : Fs)
    (filePath : String) (tempFilePath : Option String)
    (pre : Option (Except String Unit)) (events : List ParseEvent) :
    (∃ fs2, cleanupTempFile osTmpDir fs filePath = Except.ok fs2) ∧
    (importWithCleanup osTmpDir fs tempFilePath pre events).1 =
      streamImportModel pre events := by
  refine ⟨cleanupTempFile_ok osTmpDir fs filePath, ?_⟩
  cases tempFilePath with
  | none => rfl
  | some p =>
    rcases cleanupTempFile_ok osTmpDir fs p with ⟨fs2, hok⟩
    simp only [importWithCleanup, hok]

/-! ### C5 — the temp-directory deletion guard -/

/-- C5: the guard of `cleanupTempFile` is a substring test
(`filePath.includes(getTempDir())`), not a containment test: with
`os.tmpdir() = "/tmp"` the path `/home/user/tmp/chatlab/secret.txt`
does not lie under the designated temp directory `/tmp/chatlab`, yet the
guard passes and the file is deleted. -/
theorem cleanup_guard_deletes_outside_tempdir :
    strIncludes "/home/user/tmp/chatlab/secret.txt" (getTempDir "/tmp") = true
    ∧ liesUnderDir (getTempDir "/tmp") "/home/user/tmp/chatlab/secret.txt" = false
    ∧ cleanupTempFile "/tmp" ⟨["/home/user/tmp/chatlab/secret.txt"], []⟩
        "/home/user/tmp/chatlab/secret.txt" =
      Except.ok ⟨[], []⟩ := by
  refine ⟨by decide, by decide, rfl⟩

/-! ### C8 — worker-exit cleanup -/

theorem rejectAllPending_go (l : List String) (acc : ManagerState) :
    (l.foldl
      (fun acc i =>
        { pendingIds := acc.pendingIds.filter (fun j => ¬(j = i)),
          rejectionLog := acc.rejectionLog ++ [(i, workerExitedErrorText)] })
      acc).pendingIds = acc.pendingIds.filter (fun j => decide (j ∉ l)) ∧
    (l.foldl
      (fun acc i =>
        { pendingIds := acc.pendingIds.filter (fun j => ¬(j = i)),
          rejectionLog := acc.rejectionLog ++ [(i, workerExitedErrorText)] })
      acc).rejectionLog =
      acc.rejectionLog ++ l.map (fun i => (i, workerExitedErrorText)) := by
  induction l generalizing acc with
  | nil => simp
  | cons i l ih =>
    simp only [List.foldl_cons]
    rcases ih { pendingIds := acc.pendingIds.filter (fun j => ¬(j = i)),
                rejectionLog := acc.rejectionLog ++ [(i, workerExitedErrorText)] }
      with ⟨h1, h2⟩
    constructor
    · rw [h1]
      simp only [List.filter_filter]
      congr 1
      funext j
      by_cases hj : j = i <;> by_cases hl : j ∈ l <;> simp [hj, hl]
    · rw [h2]
      simp

/-- C8: the `worker.on('exit')` handler rejects every still-pending
entry with the "worker exited" error — exactly one rejection per entry,
in map order — and leaves the pending map empty, so no request stays
pending forever. -/
theorem worker_exit_rejects_all_pending (st : ManagerState) :
    (rejectAllPending st).pendingIds = [] ∧
    (rejectAllPending st).rejectionLog =
      st.rejectionLog ++ st.pendingIds.map (fun i => (i, workerExitedErrorText)) := by
  rcases rejectAllPending_go st.pendingIds st with ⟨h1, h2⟩
  refine ⟨?_, h2⟩
  rw [rejectAllPending, h1, List.filter_eq_nil_iff]
  intro a ha
  simp [ha]

/-! ### C7 — coordination timeout, exactly-once settlement -/

theorem coordStep_settled (st : RequestState) (e : CoordEvent)
    (h : st.pending = false) : coordStep st e = st := by
  cases e <;> simp [coordStep, h]

theorem foldl_coordStep_settled (events : List CoordEvent) (st : RequestState)
    (h : st.pending = false) : events.foldl coordStep st = st := by
  induction events with
  | nil => rfl
  | cons e rest ih => rw [List.foldl_cons, coordStep_settled st e h]; exact ih

/-- Reachability invariant of one pending entry: while the entry is in
the map nothing has settled the promise; once it is out, the promise was
settled exactly once. -/
def CoordInv (st : RequestState) : Prop :=
  (st.pending = true ∧ st.settlements = []) ∨
    (st.pending = false ∧ st.settlements.length = 1)

theorem coordStep_inv (st : RequestState) (e : CoordEvent) (h : CoordInv st) :
    CoordInv (coordStep st e) := by
  rcases h with ⟨hp, hs⟩ | ⟨hp, hs⟩
  · cases e <;> simp [coordStep, hp, hs, CoordInv]
  · rw [coordStep_settled st e hp]
    exact Or.inr ⟨hp, hs⟩

theorem foldl_coordStep_inv (events : List CoordEvent) (st : RequestState)
    (h : CoordInv st) : CoordInv (events.foldl coordStep st) := by
  induction events generalizing st with
  | nil => exact h
  | cons e rest ih => exact ih (coordStep st e) (coordStep_inv st e h)

theorem foldl_coordStep_progress_only (pre : List CoordEvent)
    (hpre : ∀ e ∈ pre, e = CoordEvent.progress) (n : Nat) :
    pre.foldl coordStep ⟨true, [], n⟩ = ⟨true, [], n + pre.length⟩ := by
  induction pre generalizing n with
  | nil => rfl
  | cons e rest ih =>
    have he : e = CoordEvent.progress := hpre e (by simp)
    subst he
    rw [List.foldl_cons]
    have : coordStep ⟨true, [], n⟩ CoordEvent.progress = ⟨true, [], n + 1⟩ := rfl
    rw [this, ih (fun e he => hpre e (by simp [he])) (n + 1)]
    simp [Nat.add_assoc, Nat.add_comm 1 rest.length]

/-- C7: however progress messages, a late terminal message, the timer
and a worker exit interleave, a request is settled at most once; and
when the timer fires before any terminal message or worker exit — i.e.
only progress messages arrived within the timeout — the request is
rejected exactly once, with the timeout error, and its entry leaves the
pending map for good. -/
theorem coordination_timeout_exactly_once (events pre post : List CoordEvent)
    (hpre : ∀ e ∈ pre, e = CoordEvent.progress) :
    (runCoord events).settlements.length ≤ 1 ∧
    (runCoord (pre ++ CoordEvent.timerFire :: post)).settlements =
      [Settlement.rejected timeoutErrorText] ∧
    (runCoord (pre ++ CoordEvent.timerFire :: post)).pending = false := by
  refine ⟨?_, ?_, ?_⟩
  · have h := foldl_coordStep_inv events RequestState.init (Or.inl ⟨rfl, rfl⟩)
    rcases h with ⟨_, hs⟩ | ⟨_, hs⟩
    · rw [runCoord, hs]; simp
    · rw [runCoord, hs]
  all_goals
    rw [runCoord, List.foldl_append, List.foldl_cons,
      show RequestState.init = (⟨true, [], 0⟩ : RequestState) from rfl,
      foldl_coordStep_progress_only pre hpre 0,
      show coordStep ⟨true, [], 0 + pre.length⟩ CoordEvent.timerFire =
        ⟨false, [Settlement.rejected timeoutErrorText], 0 + pre.length⟩ from rfl,
      foldl_coordStep_settled post _ rfl]

/-! ### C1 — atomic rollback on any exception inside the transaction -/

theorem runEvents_fail_isSome (err : String) :
    ∀ (events : List ParseEvent) (st : ImportState),
      ParseEvent.fail err ∈ events → ((runEvents st events).2).isSome = true := by
  intro events
  induction events with
  | nil => intro st h; simp at h
  | cons e rest ih =>
    intro st h
    cases e with
    | fail e' => rfl
    | meta m =>
      rcases List.mem_cons.mp h with h' | h'
      · exact absurd h' (by simp)
      · exact ih (applyEvent st (.meta m)) h'
    | members ms =>
      rcases List.mem_cons.mp h with h' | h'
      · exact absurd h' (by simp)
      · exact ih (applyEvent st (.members ms)) h'
    | messageBatch msgs =>
      rcases List.mem_cons.mp h with h' | h'
      · exact absurd h' (by simp)
      · exact ih (applyEvent st (.messageBatch msgs)) h'
    | progress =>
      rcases List.mem_cons.mp h with h' | h'
      · exact absurd h' (by simp)
      · exact ih (applyEvent st .progress) h'

/-- C1: if an exception is raised while the import engine consumes
parser callbacks inside the open transaction, `streamImport` rolls the
transaction back (no committed store — zero rows are visible), deletes
the newly created database file, and returns `{success: false, error}`. -/
theorem atomic_rollback_on_failure (pre : Option (Except String Unit))
    (events : List ParseEvent) (err : String)
    (hpre : pre = none ∨ pre = some (Except.ok ()))
    (hmem : ParseEvent.fail err ∈ events) :
    (streamImportModel pre events).result.success = false ∧
    ((streamImportModel pre events).result.error).isSome = true ∧
    (streamImportModel pre events).storeCreated = true ∧
    (streamImportModel pre events).dbFileExists = false ∧
    (streamImportModel pre events).committedDb = none := by
  have hfail := runEvents_fail_isSome err events ImportState.init hmem
  have hshape : ∀ r : ImportRun,
      r = (match runEvents ImportState.init events with
        | (st, some e) =>
          { result := ⟨false, none, some e⟩, storeCreated := true,
            dbFileExists := false, committedDb := none, warnLog := st.warnLog }
        | (st, none) =>
          let fin := finalizeMemberNames st
          { result := ⟨true, some "chat_session", none⟩, storeCreated := true,
            dbFileExists := true, committedDb := some fin.db,
            warnLog := fin.warnLog } : ImportRun) →
      r.result.success = false ∧ (r.result.error).isSome = true ∧
        r.storeCreated = true ∧ r.dbFileExists = false ∧ r.committedDb = none := by
    intro r hr
    rcases hrun : runEvents ImportState.init events with ⟨st, e?⟩
    cases e? with
    | some e => rw [hrun] at hr; subst hr; exact ⟨rfl, rfl, rfl, rfl, rfl⟩
    | none => rw [hrun] at hfail; simp at hfail
  rcases hpre with hp | hp <;> subst hp <;>
    exact hshape _ rfl

/-! ### C6 — preprocess failure aborts, deletes output, propagates -/

theorem runPreprocessLoop_skips_records (outputPath : String) :
    ∀ (recs : List PreItem) (fs : Fs), (∀ x ∈ recs, x = PreItem.record) →
      ∀ rest, runPreprocessLoop outputPath fs (recs ++ rest) =
        runPreprocessLoop outputPath fs rest := by
  intro recs
  induction recs with
  | nil => intro fs _ rest; rfl
  | cons x l ih =>
    intro fs h rest
    have hx : x = PreItem.record := h x (by simp)
    subst hx
    rw [List.cons_append]
    exact ih fs (fun y hy => h y (by simp [hy])) rest

theorem existsSync_after_removal (files unlinkFails : List String) (p : String) :
    Fs.existsSync ⟨files.filter (fun q => ¬(q = p)), unlinkFails⟩ p = false := by
  rw [Fs.existsSync]
  simp only [List.any_eq_true, decide_eq_true_eq, not_exists]
  rw [Bool.eq_false_iff]
  intro h
  simp only [List.any_eq_true, List.mem_filter, decide_eq_true_eq] at h
  rcases h with ⟨q, ⟨_, hq⟩, hqp⟩
  rw [hqp] at hq
  simp at hq

/-- C6: an I/O or structural-parse error during preprocessing aborts
the whole preprocess: the first error stops the pipeline, the
partially-written output file is deleted, and the error propagates.
When `streamImport`'s preprocessing stage fails with that error,
the result is `{success: false}` carrying it, and no store was
created. -/
theorem preprocess_failure_aborts_and_propagates (osTmpDir : String) (fs : Fs)
    (outputFilename : String) (recs rest : List PreItem) (e : String)
    (events : List ParseEvent) (hrecs : ∀ x ∈ recs, x = PreItem.record) :
    (preprocessQQJson osTmpDir fs outputFilename
        (recs ++ PreItem.ioError e :: rest)).outcome = Except.error e ∧
    (preprocessQQJson osTmpDir fs outputFilename
        (recs ++ PreItem.ioError e :: rest)).fs.existsSync
      (getTempDir osTmpDir ++ "/" ++ outputFilename) = false ∧
    (streamImportModel (some (Except.error e)) events).result.success = false ∧
    (streamImportModel (some (Except.error e)) events).result.error =
      some (preFailTag ++ e) ∧
    (streamImportModel (some (Except.error e)) events).storeCreated = false ∧
    (streamImportModel (some (Except.error e)) events).committedDb = none := by
  have hout : preprocessQQJson osTmpDir fs outputFilename
      (recs ++ PreItem.ioError e :: rest) =
      runPreprocessLoop (getTempDir osTmpDir ++ "/" ++ outputFilename)
        (if fs.existsSync (getTempDir osTmpDir ++ "/" ++ outputFilename) then fs
          else { fs with
            files := fs.files ++ [getTempDir osTmpDir ++ "/" ++ outputFilename] })
        (PreItem.ioError e :: rest) := by
    rw [preprocessQQJson]
    exact runPreprocessLoop_skips_records _ recs _ hrecs _
  rw [hout]
  set outputPath := getTempDir osTmpDir ++ "/" ++ outputFilename with hop
  refine ⟨rfl, ?_, rfl, rfl, rfl, rfl⟩
  rw [runPreprocessLoop]
  by_cases hex : Fs.existsSync
      (if fs.existsSync outputPath then fs
        else { fs with files := fs.files ++ [outputPath] }) outputPath
  · rw [if_pos hex]
    exact existsSync_after_removal _ _ _
  · rw [if_neg (by simpa using hex)]
    simpa using hex

/-! ### Component lemmas about the store operations -/

theorem insertOrIgnoreMember_messages (db : DbState) (pid n : String) (k : Option String) :
    (db.insertOrIgnoreMember pid n k).messages = db.messages := by
  rw [DbState.insertOrIgnoreMember]; split <;> rfl

theorem insertOrIgnoreMember_history (db : DbState) (pid n : String) (k : Option String) :
    (db.insertOrIgnoreMember pid n k).history = db.history := by
  rw [DbState.insertOrIgnoreMember]; split <;> rfl

theorem getMemberId_insertOrIgnore_self (db : DbState) (pid n : String)
    (k : Option String) :
    ∃ rid, (db.insertOrIgnoreMember pid n k).getMemberId pid = some rid := by
  rw [DbState.insertOrIgnoreMember]
  split
  · rename_i h
    simp only [List.any_eq_true, decide_eq_true_eq] at h
    rcases h with ⟨r, hr, hrpid⟩
    have : (db.members.find? (fun r => decide (r.platform_id = pid))).isSome := by
      rw [List.find?_isSome]
      exact ⟨r, hr, by simpa using hrpid⟩
    rcases Option.isSome_iff_exists.mp this with ⟨r', hr'⟩
    exact ⟨r'.id, by simp [DbState.getMemberId, hr']⟩
  · rename_i h
    refine ⟨db.nextMemberId, ?_⟩
    rw [DbState.getMemberId]
    have hnone : db.members.find? (fun r => decide (r.platform_id = pid)) = none := by
      rw [List.find?_eq_none]
      intro r hr
      simp only [decide_eq_true_eq]
      intro hpid
      exact h (by simp only [List.any_eq_true, decide_eq_true_eq]; exact ⟨r, hr, hpid⟩)
    simp only [List.find?_append, hnone, Option.orElse]
    simp [List.find?]

/-! ### Lemmas about `ensureMember` and `processMember` -/

theorem ensureMember_preserves (st : ImportState) (pid n : String) :
    (ensureMember st pid n).db.messages = st.db.messages ∧
    (ensureMember st pid n).db.history = st.db.history ∧
    (ensureMember st pid n).warnLog = st.warnLog ∧
    (ensureMember st pid n).nicknameTracker = st.nicknameTracker ∧
    (ensureMember st pid n).metaInserted = st.metaInserted := by
  rw [ensureMember]
  split
  · exact ⟨rfl, rfl, rfl, rfl, rfl⟩
  · rcases hg : (st.db.insertOrIgnoreMember pid n none).getMemberId pid with _ | rid
    all_goals
      simp [hg, insertOrIgnoreMember_messages, insertOrIgnoreMember_history]

theorem ensureMember_lookup_isSome (st : ImportState) (pid n : String) :
    (alookup (ensureMember st pid n).memberIdMap pid).isSome = true := by
  rw [ensureMember]
  split
  · assumption
  · rcases getMemberId_insertOrIgnore_self st.db pid n none with ⟨rid, hg⟩
    simp only [hg]
    rw [alookup_aset_self]
    rfl

theorem processMember_preserves (st : ImportState) (m : ParsedMember) :
    (processMember st m).db.messages = st.db.messages ∧
    (processMember st m).db.history = st.db.history ∧
    (processMember st m).warnLog = st.warnLog ∧
    (processMember st m).nicknameTracker = st.nicknameTracker ∧
    (processMember st m).metaInserted = st.metaInserted := by
  rw [processMember]
  rcases hg : (st.db.insertOrIgnoreMember m.platformId m.name
      (jsOrNull m.nickname)).getMemberId m.platformId with _ | rid
  all_goals
    simp [hg, insertOrIgnoreMember_messages, insertOrIgnoreMember_history]

theorem foldl_processMember_preserves (ms : List ParsedMember) (st : ImportState) :
    (ms.foldl processMember st).db.messages = st.db.messages ∧
    (ms.foldl processMember st).warnLog = st.warnLog := by
  induction ms generalizing st with
  | nil => exact ⟨rfl, rfl⟩
  | cons m rest ih =>
    rw [List.foldl_cons]
    rcases ih (processMember st m) with ⟨h1, h2⟩
    rcases processMember_preserves st m with ⟨g1, _, g3, _, _⟩
    exact ⟨h1.trans g1, h2.trans g3⟩

/-! ### Row / warning counts of one processed message -/

theorem processMessage_counts (st : ImportState) (m : ParsedMessage) :
    (processMessage st m).db.messages.length =
      st.db.messages.length + (if isValidMessage m then 1 else 0) ∧
    (processMessage st m).warnLog.length =
      st.warnLog.length + (if isValidMessage m then 0 else 1) := by
  rcases hv : validationError m with _ | w
  · have hvalid : isValidMessage m = true := by simp [isValidMessage, hv]
    simp only [processMessage, hv, hvalid, if_pos]
    set pid := m.senderPlatformId.getD "" with hpid
    set sn := (jsOrStr m.senderName m.senderPlatformId).getD "" with hsn
    obtain ⟨sid, hsid⟩ :=
      Option.isSome_iff_exists.mp (ensureMember_lookup_isSome st pid sn)
    rcases ensureMember_preserves st pid sn with ⟨g1, _, g3, _, _⟩
    simp only [hsid]
    rcases ht : alookup (ensureMember st pid sn).nicknameTracker pid with _ | tr
    · simp [DbState.insertMessage, DbState.insertNameHistory, g1, g3]
    · by_cases hname : tr.currentName ≠ sn
      · simp [hname, DbState.insertMessage, DbState.insertNameHistory,
          DbState.updateNameHistoryEndTs, g1, g3]
      · simp [hname, DbState.insertMessage, g1, g3]
  · have hvalid : isValidMessage m = false := by simp [isValidMessage, hv]
    simp [processMessage, hv, hvalid]

theorem foldl_processMessage_counts (msgs : List ParsedMessage) (st : ImportState) :
    (msgs.foldl processMessage st).db.messages.length =
      st.db.messages.length + msgs.countP (fun m => isValidMessage m) ∧
    (msgs.foldl processMessage st).warnLog.length =
      st.warnLog.length + msgs.countP (fun m => !isValidMessage m) := by
  induction msgs generalizing st with
  | nil => simp
  | cons m rest ih =>
    rw [List.foldl_cons]
    rcases ih (processMessage st m) with ⟨h1, h2⟩
    rcases processMessage_counts st m with ⟨g1, g2⟩
    rw [List.countP_cons, List.countP_cons]
    constructor
    · rw [h1, g1]
      cases hva : isValidMessage m <;> simp [hva] <;> omega
    · rw [h2, g2]
      cases hva : isValidMessage m <;> simp [hva] <;> omega

/-- The per-event contribution to the committed message rows. -/
def eventValidCount : ParseEvent → Nat
  | .messageBatch msgs => msgs.countP (fun m => isValidMessage m)
  | _ => 0

/-- The per-event contribution to the skip-warning log. -/
def eventInvalidCount : ParseEvent → Nat
  | .messageBatch msgs => msgs.countP (fun m => !isValidMessage m)
  | _ => 0

theorem applyEvent_counts (st : ImportState) (e : ParseEvent) :
    (applyEvent st e).db.messages.length =
      st.db.messages.length + eventValidCount e ∧
    (applyEvent st e).warnLog.length =
      st.warnLog.length + eventInvalidCount e := by
  cases e with
  | meta m =>
    rw [applyEvent]
    split <;> simp [eventValidCount, eventInvalidCount, DbState.insertMeta]
  | members ms =>
    rcases foldl_processMember_preserves ms st with ⟨h1, h2⟩
    rw [applyEvent]
    simp [eventValidCount, eventInvalidCount, h1, h2]
  | messageBatch msgs =>
    rcases foldl_processMessage_counts msgs st with ⟨h1, h2⟩
    rw [applyEvent]
    exact ⟨h1, h2⟩
  | progress => simp [applyEvent, eventValidCount, eventInvalidCount]
  | fail e => simp [applyEvent, eventValidCount, eventInvalidCount]

theorem eventMessages_cons (e : ParseEvent) (rest : List ParseEvent) :
    eventMessages (e :: rest) =
      (match e with | .messageBatch ms => ms | _ => []) ++ eventMessages rest := by
  cases e <;> rfl

theorem runEvents_no_fail (events : List ParseEvent) (st : ImportState)
    (hf : hasFail events = false) :
    runEvents st events = (events.foldl applyEvent st, none) := by
  induction events generalizing st with
  | nil => rfl
  | cons e rest ih =>
    rw [hasFail, List.any_cons, Bool.or_eq_false_iff] at hf
    cases e with
    | fail e' => simp at hf
    | meta m => rw [List.foldl_cons]; exact ih _ hf.2
    | members ms => rw [List.foldl_cons]; exact ih _ hf.2
    | messageBatch msgs => rw [List.foldl_cons]; exact ih _ hf.2
    | progress => rw [List.foldl_cons]; exact ih _ hf.2

theorem foldl_applyEvent_counts (events : List ParseEvent) (st : ImportState) :
    (events.foldl applyEvent st).db.messages.length =
      st.db.messages.length + (eventMessages events).countP (fun m => isValidMessage m) ∧
    (events.foldl applyEvent st).warnLog.length =
      st.warnLog.length + (eventMessages events).countP (fun m => !isValidMessage m) := by
  induction events generalizing st with
  | nil => simp [eventMessages]
  | cons e rest ih =>
    rw [List.foldl_cons, eventMessages_cons, List.countP_append, List.countP_append]
    rcases ih (applyEvent st e) with ⟨h1, h2⟩
    rcases applyEvent_counts st e with ⟨g1, g2⟩
    constructor
    · rw [h1, g1]
      cases e <;> simp [eventValidCount] <;> omega
    · rw [h2, g2]
      cases e <;> simp [eventInvalidCount] <;> omega

theorem finalize_preserves (st : ImportState) :
    (finalizeMemberNames st).db.messages = st.db.messages ∧
    (finalizeMemberNames st).db.history = st.db.history ∧
    (finalizeMemberNames st).warnLog = st.warnLog := by
  rw [finalizeMemberNames]
  refine ⟨?_, ?_, rfl⟩ <;>
  · generalize st.nicknameTracker = l
    induction l generalizing st with
    | nil => rfl
    | cons p rest ih => exact (ih { st with db := st.db.updateMemberName p.2.currentName p.1 }).trans rfl

/-! ### The preview's message count -/

theorem previewStep_count (st : FileInfoState) (e : ParseEvent) :
    (previewStep st e).messageCount =
      st.messageCount + (match e with | .messageBatch ms => ms.length | _ => 0) := by
  cases e <;> simp [previewStep]

theorem runPreview_no_fail (events : List ParseEvent) (st : FileInfoState)
    (hf : hasFail events = false) :
    runPreview st events = (events.foldl previewStep st, none) := by
  induction events generalizing st with
  | nil => rfl
  | cons e rest ih =>
    rw [hasFail, List.any_cons, Bool.or_eq_false_iff] at hf
    cases e with
    | fail e' => simp at hf
    | meta m => rw [List.foldl_cons]; exact ih _ hf.2
    | members ms => rw [List.foldl_cons]; exact ih _ hf.2
    | messageBatch msgs => rw [List.foldl_cons]; exact ih _ hf.2
    | progress => rw [List.foldl_cons]; exact ih _ hf.2

theorem foldl_previewStep_count (events : List ParseEvent) (st : FileInfoState) :
    (events.foldl previewStep st).messageCount =
      st.messageCount + (eventMessages events).length := by
  induction events generalizing st with
  | nil => simp [eventMessages]
  | cons e rest ih =>
    rw [List.foldl_cons, eventMessages_cons, List.length_append, ih,
      previewStep_count]
    cases e <;> simp <;> omega

/-! ### C2 — preview count equals committed row count -/

/-- C2: on a valid file (every delivered message passes the validity
check) parsed without error, the `messageCount` of the no-write preview
equals the number of `message` rows committed by a real import of the
same file; the two runs may batch the same message stream differently
(the preview picks a smaller `batchSize` for huge files), which does not
affect either count. -/
theorem preview_import_count_consistent (evP evI : List ParseEvent)
    (hsame : eventMessages evP = eventMessages evI)
    (hfP : hasFail evP = false) (hfI : hasFail evI = false)
    (hva : ∀ m ∈ eventMessages evI, isValidMessage m = true) :
    ∃ db, (streamImportModel none evI).committedDb = some db ∧
      db.messages.length = (runPreview FileInfoState.init evP).1.messageCount := by
  have hrun := runEvents_no_fail evI ImportState.init hfI
  have hprev := runPreview_no_fail evP FileInfoState.init hfP
  refine ⟨(finalizeMemberNames (evI.foldl applyEvent ImportState.init)).db,
    by simp only [streamImportModel, hrun], ?_⟩
  rcases finalize_preserves (evI.foldl applyEvent ImportState.init) with ⟨hm, _, _⟩
  rw [hm, (foldl_applyEvent_counts evI ImportState.init).1, hprev,
    foldl_previewStep_count evP FileInfoState.init, ← hsame,
    List.countP_eq_length.mpr]
  · rfl
  · intro m hmem
    rw [hsame] at hmem
    exact hva m hmem

/-! ### C3 — invalid records are dropped, counted, and non-fatal -/

/-- C3: a stream parsed without error containing `N` valid and `M`
invalid messages imports successfully, committing exactly `N` message
rows, never aborting on an invalid record; the number of drops is
available as the length of the skip-warning log. -/
theorem invalid_records_dropped_not_fatal (events : List ParseEvent)
    (hf : hasFail events = false) :
    (streamImportModel none events).result.success = true ∧
    ∃ db, (streamImportModel none events).committedDb = some db ∧
      db.messages.length = (eventMessages events).countP (fun m => isValidMessage m) ∧
      (streamImportModel none events).warnLog.length =
        (eventMessages events).countP (fun m => !isValidMessage m) := by
  have hrun := runEvents_no_fail events ImportState.init hf
  rcases finalize_preserves (events.foldl applyEvent ImportState.init) with ⟨hm, _, hw⟩
  refine ⟨by simp only [streamImportModel, hrun],
    (finalizeMemberNames (events.foldl applyEvent ImportState.init)).db,
    by simp only [streamImportModel, hrun], ?_, ?_⟩
  · rw [hm, (foldl_applyEvent_counts events ImportState.init).1]
    simp [ImportState.init, DbState.empty]
  · simp only [streamImportModel, hrun]
    rw [hw, (foldl_applyEvent_counts events ImportState.init).2]
    simp [ImportState.init]

/-! ### C9 — uniqueness of member rows per platform id -/

/-- Structural invariant of the `member` table: `platform_id` is unique
(`UNIQUE` column), the surrogate `id` is unique (`PRIMARY KEY`), and all
ids are below the `AUTOINCREMENT` counter. -/
structure DbInv (db : DbState) : Prop where
  pid_nodup : (db.members.map (fun r => r.platform_id)).Nodup
  id_nodup : (db.members.map (fun r => r.id)).Nodup
  id_lt : ∀ r ∈ db.members, r.id < db.nextMemberId

theorem dbInv_empty : DbInv DbState.empty := by
  constructor <;> simp [DbState.empty]

theorem dbInv_congr {db db' : DbState} (hm : db'.members = db.members)
    (hn : db'.nextMemberId = db.nextMemberId) (h : DbInv db) : DbInv db' := by
  constructor
  · rw [hm]; exact h.pid_nodup
  · rw [hm]; exact h.id_nodup
  · rw [hm, hn]; exact h.id_lt

theorem dbInv_insertOrIgnoreMember (db : DbState) (pid n : String)
    (k : Option String) (h : DbInv db) : DbInv (db.insertOrIgnoreMember pid n k) := by
  rw [DbState.insertOrIgnoreMember]
  split
  · exact h
  · rename_i hany
    have hnotmem : pid ∉ db.members.map (fun r => r.platform_id) := by
      intro hmem
      rcases List.mem_map.mp hmem with ⟨r, hr, hrp⟩
      exact hany (by
        simp only [List.any_eq_true, decide_eq_true_eq]
        exact ⟨r, hr, hrp⟩)
    constructor
    · rw [List.map_append]
      apply List.Nodup.append h.pid_nodup (by simp)
      simpa [List.disjoint_singleton] using hnotmem
    · rw [List.map_append]
      apply List.Nodup.append h.id_nodup (by simp)
      simp only [List.map_cons, List.map_nil, List.disjoint_singleton]
      intro hmem
      rcases List.mem_map.mp hmem with ⟨r, hr, hrid⟩
      exact absurd hrid (Nat.ne_of_lt (h.id_lt r hr))
    · intro r hr
      rcases List.mem_append.mp hr with hr | hr
      · exact Nat.lt_trans (h.id_lt r hr) (Nat.lt_succ_self _)
      · rw [List.mem_singleton.mp hr]
        exact Nat.lt_succ_self _

theorem dbInv_updateMemberName (db : DbState) (n p : String) (h : DbInv db) :
    DbInv (db.updateMemberName n p) := by
  have hpid : (db.updateMemberName n p).members.map (fun r => r.platform_id) =
      db.members.map (fun r => r.platform_id) := by
    rw [DbState.updateMemberName]
    simp only [List.map_map]
    apply List.map_congr_left
    intro r _
    simp only [Function.comp]
    split <;> rfl
  have hid : (db.updateMemberName n p).members.map (fun r => r.id) =
      db.members.map (fun r => r.id) := by
    rw [DbState.updateMemberName]
    simp only [List.map_map]
    apply List.map_congr_left
    intro r _
    simp only [Function.comp]
    split <;> rfl
  constructor
  · rw [hpid]; exact h.pid_nodup
  · rw [hid]; exact h.id_nodup
  · intro r hr
    rw [DbState.updateMemberName] at hr
    simp only [List.mem_map] at hr
    rcases hr with ⟨r0, hr0, hr0eq⟩
    have : r.id = r0.id := by rw [← hr0eq]; split <;> rfl
    rw [this]
    exact h.id_lt r0 hr0

theorem ensureMember_dbInv (st : ImportState) (pid n : String)
    (h : DbInv st.db) : DbInv (ensureMember st pid n).db := by
  rw [ensureMember]
  split
  · exact h
  · rcases hg : (st.db.insertOrIgnoreMember pid n none).getMemberId pid with _ | rid
    all_goals simp only [hg]
    all_goals exact dbInv_insertOrIgnoreMember st.db pid n none h

theorem processMessage_dbInv (st : ImportState) (m : ParsedMessage)
    (h : DbInv st.db) : DbInv (processMessage st m).db := by
  rcases hv : validationError m with _ | w
  · simp only [processMessage, hv]
    set pid := m.senderPlatformId.getD "" with hpid
    set sn := (jsOrStr m.senderName m.senderPlatformId).getD "" with hsn
    obtain ⟨sid, hsid⟩ :=
      Option.isSome_iff_exists.mp (ensureMember_lookup_isSome st pid sn)
    have h1 : DbInv (ensureMember st pid sn).db := ensureMember_dbInv st pid sn h
    simp only [hsid]
    rcases ht : alookup (ensureMember st pid sn).nicknameTracker pid with _ | tr
    · exact @dbInv_congr (ensureMember st pid sn).db _ rfl rfl h1
    · by_cases hname : tr.currentName ≠ sn
      · simp only [if_pos hname]
        exact @dbInv_congr (ensureMember st pid sn).db _ rfl rfl h1
      · simp only [if_neg hname]
        exact @dbInv_congr (ensureMember st pid sn).db _ rfl rfl h1
  · simp only [processMessage, hv]
    exact h

theorem processMember_dbInv (st : ImportState) (m : ParsedMember)
    (h : DbInv st.db) : DbInv (processMember st m).db := by
  rw [processMember]
  rcases hg : (st.db.insertOrIgnoreMember m.platformId m.name
      (jsOrNull m.nickname)).getMemberId m.platformId with _ | rid
  all_goals simp only [hg]
  all_goals exact dbInv_insertOrIgnoreMember st.db m.platformId m.name _ h

theorem applyEvent_dbInv (st : ImportState) (e : ParseEvent)
    (h : DbInv st.db) : DbInv (applyEvent st e).db := by
  cases e with
  | meta m =>
    rw [applyEvent]
    split
    · exact h
    · exact @dbInv_congr st.db _ rfl rfl h
  | members ms =>
    rw [applyEvent]
    induction ms generalizing st with
    | nil => exact h
    | cons m rest ih =>
      rw [List.foldl_cons]
      exact ih (processMember st m) (processMember_dbInv st m h)
  | messageBatch msgs =>
    rw [applyEvent]
    induction msgs generalizing st with
    | nil => exact h
    | cons m rest ih =>
      rw [List.foldl_cons]
      exact ih (processMessage st m) (processMessage_dbInv st m h)
  | progress => exact h
  | fail e => exact h

theorem runEvents_dbInv (events : List ParseEvent) (st : ImportState)
    (h : DbInv st.db) : DbInv (runEvents st events).1.db := by
  induction events generalizing st with
  | nil => exact h
  | cons e rest ih =>
    cases e with
    | fail e' => exact h
    | meta m => exact ih _ (applyEvent_dbInv st _ h)
    | members ms => exact ih _ (applyEvent_dbInv st _ h)
    | messageBatch msgs => exact ih _ (applyEvent_dbInv st _ h)
    | progress => exact ih _ (applyEvent_dbInv st _ h)

theorem finalize_dbInv (st : ImportState) (h : DbInv st.db) :
    DbInv (finalizeMemberNames st).db := by
  rw [finalizeMemberNames]
  generalize st.nicknameTracker = l
  simp only []
  induction l generalizing st with
  | nil => exact h
  | cons p rest ih =>
    rw [List.foldl_cons]
    exact ih { st with db := st.db.updateMemberName p.2.currentName p.1 }
      (dbInv_updateMemberName st.db _ _ h)

theorem countP_pid_le_one (l : List MemberRow)
    (h : (l.map (fun r => r.platform_id)).Nodup) (pid : String) :
    l.countP (fun r => r.platform_id = pid) ≤ 1 := by
  induction l with
  | nil => simp
  | cons a l ih =>
    rw [List.map_cons, List.nodup_cons] at h
    rw [List.countP_cons]
    by_cases ha : a.platform_id = pid
    · have hz : l.countP (fun r => decide (r.platform_id = pid)) = 0 := by
        rw [List.countP_eq_zero]
        intro r hr
        simp only [decide_eq_true_eq]
        intro hrp
        exact h.1 (List.mem_map.mpr ⟨r, hr, by rw [hrp, ha]⟩)
      simp [ha, hz]
    · simp only [decide_eq_true_eq, ha, if_neg]
      simpa using ih h.2

/-- C9: after an import, at most one `member` row exists per
`platformId`, however often the `ParsedMember` list and the message
senders repeat that id — `INSERT OR IGNORE` against the `UNIQUE`
`platform_id` column plus the in-memory id map keep the table
duplicate-free. -/
theorem member_upsert_idempotent (events : List ParseEvent) (pid : String)
    (db : DbState)
    (h : (streamImportModel none events).committedDb = some db) :
    db.members.countP (fun r => r.platform_id = pid) ≤ 1 := by
  rcases hrun : runEvents ImportState.init events with ⟨st, e?⟩
  have hinv : DbInv (runEvents ImportState.init events).1.db :=
    runEvents_dbInv events ImportState.init dbInv_empty
  rw [hrun] at hinv
  cases e? with
  | some e =>
    simp only [streamImportModel, hrun] at h
    simp at h
  | none =>
    simp only [streamImportModel, hrun] at h
    have hdb : db = (finalizeMemberNames st).db := by
      exact (Option.some_inj.mp h).symm
    rw [hdb]
    exact countP_pid_le_one _ (finalize_dbInv st hinv).pid_nodup pid

/-! ### C4 — supporting definitions and list lemmas -/

/-- The timestamp the `nicknameTracker` currently holds for a member,
as a zero- or one-element list (for concatenation with the timestamps
still to come). -/
def seedTs (st : ImportState) (pid : String) : List Int :=
  match alookup st.nicknameTracker pid with
  | some tr => [tr.lastSeenTs]
  | none => []

/-- Timestamps of one member's valid messages within one message list. -/
def msgsTs (msgs : List ParsedMessage) (pid : String) : List Int :=
  (msgs.filter (fun m => isValidMessage m)).filterMap
    (fun m => if m.senderPlatformId = some pid then m.timestamp else none)

theorem insertMessage_history (db : DbState) (sid : Nat) (ts ty : Int)
    (c : Option String) : (db.insertMessage sid ts ty c).history = db.history := rfl

theorem insertMessage_members (db : DbState) (sid : Nat) (ts ty : Int)
    (c : Option String) : (db.insertMessage sid ts ty c).members = db.members := rfl

theorem rowsOfMember_insertNameHistory_self (db : DbState) (mid : Nat)
    (n : String) (ts : Int) (e : Option Int) :
    rowsOfMember (db.insertNameHistory mid n ts e) mid =
      rowsOfMember db mid ++ [⟨mid, n, ts, e⟩] := by
  rw [rowsOfMember, DbState.insertNameHistory]
  simp [List.filter_append, rowsOfMember]

theorem rowsOfMember_insertNameHistory_ne (db : DbState) (mid mid' : Nat)
    (n : String) (ts : Int) (e : Option Int) (hne : mid' ≠ mid) :
    rowsOfMember (db.insertNameHistory mid' n ts e) mid = rowsOfMember db mid := by
  rw [rowsOfMember, DbState.insertNameHistory]
  simp [List.filter_append, rowsOfMember, hne]

/-- The closing function applied to one member's rows by
`updateNameHistoryEndTs`. -/
def closeOpenRow (ts : Int) (r : HistoryRow) : HistoryRow :=
  if r.end_ts = none then { r with end_ts := some ts } else r

theorem filter_map_close (ts : Int) (mid : Nat) (l : List HistoryRow) :
    (l.map (fun r => if r.member_id = mid ∧ r.end_ts = none
        then { r with end_ts := some ts } else r)).filter
          (fun r => r.member_id = mid) =
      (l.filter (fun r => r.member_id = mid)).map (closeOpenRow ts) := by
  induction l with
  | nil => rfl
  | cons r l ih =>
    by_cases hr : r.member_id = mid
    · by_cases he : r.end_ts = none
      · simp [List.filter_cons, hr, he, closeOpenRow, ih]
      · simp [List.filter_cons, hr, he, closeOpenRow, ih]
    · simp [List.filter_cons, hr, ih]

theorem filter_map_close_ne (ts : Int) (mid mid' : Nat) (hne : mid ≠ mid')
    (l : List HistoryRow) :
    (l.map (fun r => if r.member_id = mid' ∧ r.end_ts = none
        then { r with end_ts := some ts } else r)).filter
          (fun r => r.member_id = mid) =
      l.filter (fun r => r.member_id = mid) := by
  induction l with
  | nil => rfl
  | cons r l ih =>
    by_cases hr : r.member_id = mid
    · simp [List.filter_cons, hr, hne, ih]
    · by_cases hm : r.member_id = mid' ∧ r.end_ts = none
      · simp [List.filter_cons, hm, hr, Ne.symm hne, ih]
      · simp [List.filter_cons, hm, hr, ih]

theorem rowsOfMember_update_self (db : DbState) (ts : Int) (mid : Nat) :
    rowsOfMember (db.updateNameHistoryEndTs ts mid) mid =
      (rowsOfMember db mid).map (closeOpenRow ts) := by
  rw [rowsOfMember, rowsOfMember, DbState.updateNameHistoryEndTs]
  exact filter_map_close ts mid db.history

theorem rowsOfMember_update_ne (db : DbState) (ts : Int) (mid mid' : Nat)
    (hne : mid ≠ mid') :
    rowsOfMember (db.updateNameHistoryEndTs ts mid') mid = rowsOfMember db mid := by
  rw [rowsOfMember, rowsOfMember, DbState.updateNameHistoryEndTs]
  exact filter_map_close_ne ts mid mid' hne db.history

theorem rowsOfMember_insertMessage (db : DbState) (sid : Nat) (ts ty : Int)
    (c : Option String) (mid : Nat) :
    rowsOfMember (db.insertMessage sid ts ty c) mid = rowsOfMember db mid := rfl

theorem startsSortedB_append_one (l : List HistoryRow) (a : HistoryRow) :
    startsSortedB (l ++ [a]) =
      (startsSortedB l &&
        match l.getLast? with
        | none => true
        | some b => decide (b.start_ts ≤ a.start_ts)) := by
  induction l with
  | nil => rfl
  | cons r l ih =>
    cases l with
    | nil => simp [startsSortedB]
    | cons s l2 =>
      have hlast : (s :: l2).getLast? = (r :: s :: l2).getLast? := by
        rw [List.getLast?_cons_cons]
      show (decide (r.start_ts ≤ s.start_ts) && startsSortedB ((s :: l2) ++ [a])) = _
      rw [ih, ← hlast,
        show startsSortedB (r :: s :: l2) =
          (decide (r.start_ts ≤ s.start_ts) && startsSortedB (s :: l2)) from rfl,
        Bool.and_assoc]

theorem chainedB_append_one (l : List HistoryRow) (a : HistoryRow) :
    chainedB (l ++ [a]) =
      (chainedB l &&
        match l.getLast? with
        | none => true
        | some b => decide (b.end_ts = some a.start_ts)) := by
  induction l with
  | nil => rfl
  | cons r l ih =>
    cases l with
    | nil => simp [chainedB]
    | cons s l2 =>
      have hlast : (s :: l2).getLast? = (r :: s :: l2).getLast? := by
        rw [List.getLast?_cons_cons]
      show (decide (r.end_ts = some s.start_ts) && chainedB ((s :: l2) ++ [a])) = _
      rw [ih, ← hlast,
        show chainedB (r :: s :: l2) =
          (decide (r.end_ts = some s.start_ts) && chainedB (s :: l2)) from rfl,
        Bool.and_assoc]

theorem startsSortedB_tail (r : HistoryRow) (l : List HistoryRow)
    (h : startsSortedB (r :: l) = true) : startsSortedB l = true := by
  cases l with
  | nil => rfl
  | cons s l2 =>
    rw [startsSortedB, Bool.and_eq_true] at h
    exact h.2

theorem sortByStart_of_sorted (rows : List HistoryRow)
    (h : startsSortedB rows = true) : sortByStart rows = rows := by
  induction rows with
  | nil => rfl
  | cons r l ih =>
    rw [sortByStart, List.foldr_cons]
    have hl : sortByStart l = l := ih (startsSortedB_tail r l h)
    rw [sortByStart] at hl
    rw [hl]
    cases l with
    | nil => rfl
    | cons s l2 =>
      rw [startsSortedB, Bool.and_eq_true, decide_eq_true_eq] at h
      rw [insertByStart, if_neg (by omega)]

/-! ### Field extraction for valid messages -/

theorem jsFalsyStr_false (a : Option String) (h : jsFalsyStr a = false) :
    a = some (a.getD "") ∧ a.getD "" ≠ "" := by
  cases a with
  | none => simp [jsFalsyStr] at h
  | some s =>
    rw [jsFalsyStr] at h
    exact ⟨rfl, by simpa using h⟩

theorem validationError_none_parts (m : ParsedMessage)
    (h : validationError m = none) :
    jsFalsyStr m.senderPlatformId = false ∧ jsFalsyStr m.senderName = false ∧
    m.timestamp = some (m.timestamp.getD 0) ∧ m.mtype = some (m.mtype.getD 0) := by
  rw [validationError] at h
  by_cases h1 : (jsFalsyStr m.senderPlatformId || jsFalsyStr m.senderName) = true
  · rw [if_pos h1] at h; exact absurd h (by simp)
  · rw [if_neg h1] at h
    simp only [Bool.or_eq_true, not_or, Bool.not_eq_true] at h1
    by_cases h2 : m.timestamp.isNone = true
    · rw [if_pos (by simpa using h2)] at h; exact absurd h (by simp)
    · rw [if_neg (by simpa using h2)] at h
      by_cases h3 : m.mtype.isNone = true
      · rw [if_pos (by simpa using h3)] at h; exact absurd h (by simp)
      · refine ⟨h1.1, h1.2, ?_, ?_⟩
        · cases ht : m.timestamp with
          | none => rw [ht] at h2; simp at h2
          | some t => rfl
        · cases hy : m.mtype with
          | none => rw [hy] at h3; simp at h3
          | some t => rfl

/-! ### The import-state invariant for the nickname ledger -/

theorem insertNameHistory_members (db : DbState) (mid : Nat) (n : String)
    (ts : Int) (e : Option Int) : (db.insertNameHistory mid n ts e).members = db.members := rfl

theorem updateNameHistoryEndTs_members (db : DbState) (ts : Int) (mid : Nat) :
    (db.updateNameHistoryEndTs ts mid).members = db.members := rfl

theorem members_subset_insertOrIgnore (db : DbState) (pid n : String)
    (k : Option String) (r : MemberRow) (hr : r ∈ db.members) :
    r ∈ (db.insertOrIgnoreMember pid n k).members := by
  rw [DbState.insertOrIgnoreMember]
  split
  · exact hr
  · exact List.mem_append_left _ hr

theorem insertOrIgnore_of_exists (db : DbState) (pid n : String) (k : Option String)
    (h : ∃ r ∈ db.members, r.platform_id = pid) :
    db.insertOrIgnoreMember pid n k = db := by
  rw [DbState.insertOrIgnoreMember, if_pos]
  simp only [List.any_eq_true, decide_eq_true_eq]
  exact h

theorem alookup_aset_of_eq {α : Type} (m : List (String × α)) (k : String) (v : α)
    (h : alookup m k = some v) (q : String) : alookup (aset m k v) q = alookup m q := by
  by_cases hq : q = k
  · rw [hq, alookup_aset_self, h]
  · exact alookup_aset_ne m k q v hq

theorem map_of_all_eq {α : Type} (l : List α) (f : α → α) (h : ∀ r ∈ l, f r = r) :
    l.map f = l := by
  induction l with
  | nil => rfl
  | cons a l ih =>
    rw [List.map_cons, h a (by simp), ih (fun r hr => h r (by simp [hr]))]

theorem getMemberId_mem (db : DbState) (pid : String) (rid : Nat)
    (h : db.getMemberId pid = some rid) :
    ∃ r ∈ db.members, r.platform_id = pid ∧ r.id = rid := by
  rw [DbState.getMemberId] at h
  rcases hf : db.members.find? (fun r => decide (r.platform_id = pid)) with _ | r
  · rw [hf] at h; simp at h
  · rw [hf] at h
    have hmem := List.mem_of_find?_eq_some hf
    have hpid := List.find?_some hf
    simp only [decide_eq_true_eq] at hpid
    simp at h
    exact ⟨r, hmem, hpid, h⟩

theorem getMemberId_of_mem (db : DbState)
    (hnd : (db.members.map (fun r => r.platform_id)).Nodup) (r : MemberRow)
    (hr : r ∈ db.members) (pid : String) (hpid : r.platform_id = pid) :
    db.getMemberId pid = some r.id := by
  have hsome : (db.members.find? (fun r => decide (r.platform_id = pid))).isSome := by
    rw [List.find?_isSome]
    exact ⟨r, hr, by simpa using hpid⟩
  rcases Option.isSome_iff_exists.mp hsome with ⟨r', hf⟩
  have hmem' := List.mem_of_find?_eq_some hf
  have hpid' := List.find?_some hf
  simp only [decide_eq_true_eq] at hpid'
  have : r' = r :=
    List.inj_on_of_nodup_map hnd hmem' hr (by rw [hpid', hpid])
  rw [DbState.getMemberId, hf, this]
  rfl

/-- Well-formed ledger of one member relative to its tracker entry:
a run of closed intervals followed by exactly one open one carrying the
tracked current name, with non-decreasing starts, consecutive rows
meeting, and the open start not beyond the last seen timestamp. -/
structure LedgerOk (rows : List HistoryRow) (tr : NickTracker) : Prop where
  shape : ∃ closed lastRow, rows = closed ++ [lastRow] ∧
    lastRow.end_ts = none ∧ lastRow.name = tr.currentName ∧
    lastRow.start_ts ≤ tr.lastSeenTs ∧
    ∀ r ∈ closed, (r.end_ts).isSome = true
  sorted : startsSortedB rows = true
  chained : chainedB rows = true

/-- Invariant of the in-flight import state: the id map points at real
member rows, the member table is well-formed, tracked members are
mapped, every ledger row belongs to a tracked member, and each tracked
member's ledger is well-formed. -/
structure SInv (st : ImportState) : Prop where
  map_mem : ∀ pid mid, alookup st.memberIdMap pid = some mid →
    ∃ r ∈ st.db.members, r.platform_id = pid ∧ r.id = mid
  dbinv : DbInv st.db
  tracker_map : ∀ pid tr, alookup st.nicknameTracker pid = some tr →
    (alookup st.memberIdMap pid).isSome = true
  hist_tracked : ∀ row ∈ st.db.history, ∃ pid tr mid,
    alookup st.nicknameTracker pid = some tr ∧
    alookup st.memberIdMap pid = some mid ∧ row.member_id = mid
  ledger : ∀ pid tr mid, alookup st.nicknameTracker pid = some tr →
    alookup st.memberIdMap pid = some mid →
    LedgerOk (rowsOfMember st.db mid) tr

theorem sinv_init : SInv ImportState.init := by
  constructor
  · intro pid mid h
    simp [ImportState.init, alookup] at h
  · exact dbInv_empty
  · intro pid tr h
    simp [ImportState.init, alookup] at h
  · intro row hrow
    simp [ImportState.init, DbState.empty] at hrow
  · intro pid tr mid h
    simp [ImportState.init, alookup] at h

theorem sinv_map_inj (st : ImportState) (h : SInv st) (p q : String) (mid : Nat)
    (hp : alookup st.memberIdMap p = some mid)
    (hq : alookup st.memberIdMap q = some mid) : p = q := by
  rcases h.map_mem p mid hp with ⟨rp, hrp, hrp1, hrp2⟩
  rcases h.map_mem q mid hq with ⟨rq, hrq, hrq1, hrq2⟩
  have : rp = rq := by
    apply List.inj_on_of_nodup_map h.dbinv.id_nodup hrp hrq
    rw [hrp2, hrq2]
  rw [← hrp1, ← hrq1, this]

theorem sinv_rows_empty_untracked (st : ImportState) (h : SInv st) (pid : String)
    (mid : Nat) (hmap : alookup st.memberIdMap pid = some mid)
    (htr : alookup st.nicknameTracker pid = none) :
    rowsOfMember st.db mid = [] := by
  rw [rowsOfMember, List.filter_eq_nil_iff]
  intro row hrow
  simp only [decide_eq_true_eq]
  intro heq
  rcases h.hist_tracked row hrow with ⟨q, tr, midq, htq, hmq, heq'⟩
  have hmidq : midq = mid := by rw [← heq', heq]
  rw [hmidq] at hmq
  have : q = pid := sinv_map_inj st h q pid mid hmq hmap
  rw [this] at htq
  rw [htq] at htr
  exact Option.noConfusion htr

/-- All the import-state components `SInv` reads. -/
theorem sinv_of_components (st' st : ImportState)
    (hm : st'.db.members = st.db.members) (hh : st'.db.history = st.db.history)
    (hn : st'.db.nextMemberId = st.db.nextMemberId)
    (hmap : st'.memberIdMap = st.memberIdMap)
    (htr : st'.nicknameTracker = st.nicknameTracker) (h : SInv st) : SInv st' := by
  constructor
  · intro pid mid hl
    rw [hmap] at hl
    rw [hm]
    exact h.map_mem pid mid hl
  · exact dbInv_congr hm hn h.dbinv
  · intro pid tr hl
    rw [htr] at hl
    rw [hmap]
    exact h.tracker_map pid tr hl
  · intro row hrow
    rw [hh] at hrow
    rcases h.hist_tracked row hrow with ⟨q, tr, midq, h1, h2, h3⟩
    exact ⟨q, tr, midq, by rw [htr]; exact h1, by rw [hmap]; exact h2, h3⟩
  · intro pid tr mid h1 h2
    rw [htr] at h1
    rw [hmap] at h2
    have : rowsOfMember st'.db mid = rowsOfMember st.db mid := by
      rw [rowsOfMember, rowsOfMember, hh]
    rw [this]
    exact h.ledger pid tr mid h1 h2

theorem sinv_map_ext (st : ImportState) (m' : List (String × Nat))
    (hext : ∀ q, alookup m' q = alookup st.memberIdMap q) (h : SInv st) :
    SInv { st with memberIdMap := m' } := by
  constructor
  · intro pid mid hl
    rw [hext] at hl
    exact h.map_mem pid mid hl
  · exact h.dbinv
  · intro pid tr hl
    rw [hext]
    exact h.tracker_map pid tr hl
  · intro row hrow
    rcases h.hist_tracked row hrow with ⟨q, tr, midq, h1, h2, h3⟩
    exact ⟨q, tr, midq, h1, by rw [hext]; exact h2, h3⟩
  · intro pid tr mid h1 h2
    rw [hext] at h2
    exact h.ledger pid tr mid h1 h2

theorem sinv_insert_aset (st : ImportState) (pid n : String) (k : Option String)
    (rid : Nat) (h : SInv st)
    (hnone : alookup st.memberIdMap pid = none)
    (hg : (st.db.insertOrIgnoreMember pid n k).getMemberId pid = some rid) :
    SInv { st with db := st.db.insertOrIgnoreMember pid n k, memberIdMap := aset st.memberIdMap pid rid } := by
  have hhist : (st.db.insertOrIgnoreMember pid n k).history = st.db.history :=
    insertOrIgnoreMember_history ..
  constructor
  · intro q mid hl
    by_cases hq : q = pid
    · rw [hq, alookup_aset_self] at hl
      rcases getMemberId_mem _ _ _ hg with ⟨r, hr, hr1, hr2⟩
      exact ⟨r, hr, by rw [hq]; exact hr1, by rw [← Option.some_inj.mp hl]; exact hr2⟩
    · rw [alookup_aset_ne _ _ _ _ hq] at hl
      rcases h.map_mem q mid hl with ⟨r, hr, hr1, hr2⟩
      exact ⟨r, members_subset_insertOrIgnore _ _ _ _ r hr, hr1, hr2⟩
  · exact dbInv_insertOrIgnoreMember st.db pid n k h.dbinv
  · intro q tr hl
    exact alookup_aset_isSome _ _ _ _ (h.tracker_map q tr hl)
  · intro row hrow
    rw [hhist] at hrow
    rcases h.hist_tracked row hrow with ⟨q, tr, midq, h1, h2, h3⟩
    have hq : q ≠ pid := by
      intro hc
      rw [hc, hnone] at h2
      exact Option.noConfusion h2
    exact ⟨q, tr, midq, h1, by rw [alookup_aset_ne _ _ _ _ hq]; exact h2, h3⟩
  · intro q tr mid h1 h2
    have hq : q ≠ pid := by
      intro hc
      have := h.tracker_map q tr h1
      rw [hc, hnone] at this
      exact Bool.noConfusion this
    rw [alookup_aset_ne _ _ _ _ hq] at h2
    have : rowsOfMember (st.db.insertOrIgnoreMember pid n k) mid =
        rowsOfMember st.db mid := by
      rw [rowsOfMember, rowsOfMember, hhist]
    rw [this]
    exact h.ledger q tr mid h1 h2

theorem ensureMember_sinv (st : ImportState) (pid n : String) (h : SInv st) :
    SInv (ensureMember st pid n) := by
  rw [ensureMember]
  split
  · exact h
  · rename_i hns
    have hnone : alookup st.memberIdMap pid = none := by
      cases hl : alookup st.memberIdMap pid with
      | none => rfl
      | some v => rw [hl] at hns; exact absurd rfl hns
    rcases getMemberId_insertOrIgnore_self st.db pid n none with ⟨rid, hg⟩
    simp only [hg]
    exact sinv_insert_aset st pid n none rid h hnone hg

theorem processMember_sinv (st : ImportState) (m : ParsedMember) (h : SInv st) :
    SInv (processMember st m) := by
  rw [processMember]
  cases hmap : alookup st.memberIdMap m.platformId with
  | some mid0 =>
    rcases h.map_mem m.platformId mid0 hmap with ⟨r0, hr0, hr01, hr02⟩
    have hsame : st.db.insertOrIgnoreMember m.platformId m.name
        (jsOrNull m.nickname) = st.db :=
      insertOrIgnore_of_exists _ _ _ _ ⟨r0, hr0, hr01⟩
    have hgid : st.db.getMemberId m.platformId = some r0.id :=
      getMemberId_of_mem st.db h.dbinv.pid_nodup r0 hr0 m.platformId hr01
    rw [hsame, hgid]
    have hval : alookup st.memberIdMap m.platformId = some r0.id := by
      rw [hmap, hr02]
    exact sinv_map_ext st _ (alookup_aset_of_eq _ _ _ hval) h
  | none =>
    rcases getMemberId_insertOrIgnore_self st.db m.platformId m.name
      (jsOrNull m.nickname) with ⟨rid, hg⟩
    rw [hg]
    exact sinv_insert_aset st m.platformId m.name (jsOrNull m.nickname) rid h hmap hg

/-- Common shape of the three nickname-tracking branches of the
`onMessageBatch` loop body: the member table is untouched, the sender's
ledger is rewritten to a well-formed one, other members' ledgers are
untouched, and the tracker entry of the sender is set. -/
theorem sinv_track_update (st1 : ImportState) (pid : String) (ts : Int)
    (sid : Nat) (db2 : DbState) (name2 : String) (h1 : SInv st1)
    (hsid : alookup st1.memberIdMap pid = some sid)
    (hmem2 : db2.members = st1.db.members)
    (hnext2 : db2.nextMemberId = st1.db.nextMemberId)
    (hrows_self : LedgerOk (rowsOfMember db2 sid) ⟨name2, ts⟩)
    (hrows_ne : ∀ mid, mid ≠ sid → rowsOfMember db2 mid = rowsOfMember st1.db mid)
    (hhist2 : ∀ row ∈ db2.history, row.member_id = sid ∨ row ∈ st1.db.history) :
    SInv { st1 with db := db2, nicknameTracker := aset st1.nicknameTracker pid ⟨name2, ts⟩ } := by
  constructor
  · intro q mid hl
    rw [hmem2]
    exact h1.map_mem q mid hl
  · exact dbInv_congr hmem2 hnext2 h1.dbinv
  · intro q tr hl
    by_cases hq : q = pid
    · rw [hq, hsid]
      rfl
    · rw [alookup_aset_ne _ _ _ _ hq] at hl
      exact h1.tracker_map q tr hl
  · intro row hrow
    rcases hhist2 row hrow with hmid | hold
    · exact ⟨pid, ⟨name2, ts⟩, sid, alookup_aset_self .., hsid, hmid⟩
    · rcases h1.hist_tracked row hold with ⟨q, trq, midq, hq1, hq2, hq3⟩
      by_cases hq : q = pid
      · refine ⟨pid, ⟨name2, ts⟩, sid, alookup_aset_self .., hsid, ?_⟩
        rw [hq] at hq2
        rw [hq3, Option.some_inj.mp (hq2.symm.trans hsid)]
      · exact ⟨q, trq, midq, by rw [alookup_aset_ne _ _ _ _ hq]; exact hq1, hq2, hq3⟩
  · intro q trq midq hq1 hq2
    by_cases hq : q = pid
    · rw [hq, alookup_aset_self] at hq1
      rw [hq] at hq2
      rw [← Option.some_inj.mp hq1, Option.some_inj.mp (hq2.symm.trans hsid)]
      exact hrows_self
    · rw [alookup_aset_ne _ _ _ _ hq] at hq1
      have hne : midq ≠ sid := by
        intro hc
        rw [hc] at hq2
        exact hq (sinv_map_inj st1 h1 q pid sid hq2 hsid)
      rw [hrows_ne midq hne]
      exact h1.ledger q trq midq hq1 hq2

theorem processMessage_sinv (st : ImportState) (m : ParsedMessage) (h : SInv st)
    (hts : ∀ tr, alookup st.nicknameTracker (m.senderPlatformId.getD "") = some tr →
      tr.lastSeenTs ≤ m.timestamp.getD 0) :
    SInv (processMessage st m) := by
  rcases hv : validationError m with _ | w
  · simp only [processMessage, hv]
    set pid := m.senderPlatformId.getD "" with hpiddef
    set sn := (jsOrStr m.senderName m.senderPlatformId).getD "" with hsndef
    obtain ⟨sid, hsid⟩ :=
      Option.isSome_iff_exists.mp (ensureMember_lookup_isSome st pid sn)
    have h1 : SInv (ensureMember st pid sn) := ensureMember_sinv st pid sn h
    have htrk : (ensureMember st pid sn).nicknameTracker = st.nicknameTracker :=
      (ensureMember_preserves st pid sn).2.2.2.1
    simp only [hsid]
    rcases ht : alookup (ensureMember st pid sn).nicknameTracker pid with _ | tr
    · -- first observation of this member: open a fresh interval
      have hempty : rowsOfMember (ensureMember st pid sn).db sid = [] :=
        sinv_rows_empty_untracked _ h1 pid sid hsid ht
      dsimp only []
      refine sinv_track_update (ensureMember st pid sn) pid (m.timestamp.getD 0)
        sid _ sn h1 hsid ?_ ?_ ?_ ?_ ?_
      · rfl
      · rfl
      · have hrows : rowsOfMember
            (((ensureMember st pid sn).db.insertMessage sid (m.timestamp.getD 0)
              (m.mtype.getD 0) m.content).insertNameHistory sid sn
              (m.timestamp.getD 0) none) sid =
            [⟨sid, sn, m.timestamp.getD 0, none⟩] := by
          rw [rowsOfMember_insertNameHistory_self]
          rw [show rowsOfMember ((ensureMember st pid sn).db.insertMessage sid
            (m.timestamp.getD 0) (m.mtype.getD 0) m.content) sid =
            rowsOfMember (ensureMember st pid sn).db sid from rfl, hempty]
          rfl
        rw [hrows]
        refine ⟨⟨[], ⟨sid, sn, m.timestamp.getD 0, none⟩, rfl, rfl, rfl, le_refl _,
          by simp⟩, rfl, rfl⟩
      · intro mid hne
        rw [rowsOfMember_insertNameHistory_ne _ mid sid _ _ _
          (fun hc => hne hc.symm)]
        rfl
      · intro row hrow
        rcases List.mem_append.mp hrow with hold | hnew
        · exact Or.inr hold
        · rw [List.mem_singleton.mp hnew]
          exact Or.inl rfl
    · have htr_st : alookup st.nicknameTracker pid = some tr := by
        rw [← htrk]; exact ht
      have hle : tr.lastSeenTs ≤ m.timestamp.getD 0 := hts tr htr_st
      have hled := h1.ledger pid tr sid ht hsid
      rcases hled.shape with ⟨closed, openR, hrows0, hopen_end, hopen_name,
        hopen_le, hclosed⟩
      by_cases hname : tr.currentName ≠ sn
      · -- name change: close the open interval at this timestamp, open a new one
        simp only [if_pos hname]
        refine sinv_track_update (ensureMember st pid sn) pid (m.timestamp.getD 0)
          sid _ sn h1 hsid ?_ ?_ ?_ ?_ ?_
        · rfl
        · rfl
        · have hrows2 : rowsOfMember
              ((((ensureMember st pid sn).db.insertMessage sid (m.timestamp.getD 0)
                (m.mtype.getD 0) m.content).updateNameHistoryEndTs
                (m.timestamp.getD 0) sid).insertNameHistory sid sn
                (m.timestamp.getD 0) none) sid =
              (closed ++ [{ openR with end_ts := some (m.timestamp.getD 0) }]) ++
                [⟨sid, sn, m.timestamp.getD 0, none⟩] := by
            rw [rowsOfMember_insertNameHistory_self, rowsOfMember_update_self]
            rw [show rowsOfMember ((ensureMember st pid sn).db.insertMessage sid
              (m.timestamp.getD 0) (m.mtype.getD 0) m.content) sid =
              rowsOfMember (ensureMember st pid sn).db sid from rfl, hrows0]
            congr 1
            rw [List.map_append]
            congr 1
            · exact map_of_all_eq closed _ (fun r hr => by
                rw [closeOpenRow, if_neg]
                intro hc
                have := hclosed r hr
                rw [hc] at this
                simp at this)
            · rw [List.map_cons, List.map_nil, closeOpenRow, if_pos hopen_end]
          rw [hrows2]
          have hs0 : startsSortedB (closed ++ [openR]) = true := by
            rw [← hrows0]; exact hled.sorted
          have hc0 : chainedB (closed ++ [openR]) = true := by
            rw [← hrows0]; exact hled.chained
          have hs1 : startsSortedB
              (closed ++ [{ openR with end_ts := some (m.timestamp.getD 0) }]) = true := by
            rw [startsSortedB_append_one]
            rw [startsSortedB_append_one] at hs0
            exact hs0
          have hc1 : chainedB
              (closed ++ [{ openR with end_ts := some (m.timestamp.getD 0) }]) = true := by
            rw [chainedB_append_one]
            rw [chainedB_append_one] at hc0
            exact hc0
          refine ⟨⟨closed ++ [{ openR with end_ts := some (m.timestamp.getD 0) }],
            ⟨sid, sn, m.timestamp.getD 0, none⟩, rfl, rfl, rfl, le_refl _, ?_⟩, ?_, ?_⟩
          · intro r hr
            rcases List.mem_append.mp hr with hr | hr
            · exact hclosed r hr
            · rw [List.mem_singleton.mp hr]
              rfl
          · rw [startsSortedB_append_one, List.getLast?_concat]
            rw [Bool.and_eq_true]
            refine ⟨hs1, ?_⟩
            simp only [decide_eq_true_eq]
            exact le_trans hopen_le hle
          · rw [chainedB_append_one, List.getLast?_concat]
            rw [Bool.and_eq_true]
            refine ⟨hc1, ?_⟩
            simp
        · intro mid hne
          rw [rowsOfMember_insertNameHistory_ne _ mid sid _ _ _
            (fun hc => hne hc.symm)]
          rw [rowsOfMember_update_ne _ _ mid sid hne]
          rfl
        · intro row hrow
          rcases List.mem_append.mp hrow with hold | hnew
          · rcases List.mem_map.mp hold with ⟨row0, hrow0, hfeq⟩
            by_cases hr0 : row0.member_id = sid
            · left
              rw [← hfeq]
              have : (if row0.member_id = sid ∧ row0.end_ts = none
                  then { row0 with end_ts := some (m.timestamp.getD 0) }
                  else row0).member_id = row0.member_id := by
                split <;> rfl
              rw [this, hr0]
            · right
              rw [← hfeq, if_neg (fun hc => hr0 hc.1)]
              exact hrow0
          · rw [List.mem_singleton.mp hnew]
            exact Or.inl rfl
      · -- unchanged name: no ledger row, only the tracker timestamp advances
        simp only [if_neg hname]
        refine sinv_track_update (ensureMember st pid sn) pid (m.timestamp.getD 0)
          sid _ tr.currentName h1 hsid ?_ ?_ ?_ ?_ ?_
        · rfl
        · rfl
        · rw [show rowsOfMember ((ensureMember st pid sn).db.insertMessage sid
            (m.timestamp.getD 0) (m.mtype.getD 0) m.content) sid =
            rowsOfMember (ensureMember st pid sn).db sid from rfl]
          refine ⟨⟨closed, openR, hrows0, hopen_end, hopen_name,
            le_trans hopen_le hle, hclosed⟩, hled.sorted, hled.chained⟩
        · intro mid _
          rfl
        · intro row hrow
          exact Or.inr hrow
  · simp only [processMessage, hv]
    exact sinv_of_components _ st rfl rfl rfl rfl rfl h

/-! ### Threading the per-member timestamp order through the fold -/

theorem processMessage_seedTs (st : ImportState) (m : ParsedMessage) :
    ∀ q, seedTs (processMessage st m) q =
      if isValidMessage m = true ∧ q = m.senderPlatformId.getD "" then
        [m.timestamp.getD 0]
      else seedTs st q := by
  intro q
  rcases hv : validationError m with _ | w
  · have hvalid : isValidMessage m = true := by simp [isValidMessage, hv]
    simp only [processMessage, hv]
    set pid := m.senderPlatformId.getD "" with hpiddef
    set sn := (jsOrStr m.senderName m.senderPlatformId).getD "" with hsndef
    obtain ⟨sid, hsid⟩ :=
      Option.isSome_iff_exists.mp (ensureMember_lookup_isSome st pid sn)
    have htrk : (ensureMember st pid sn).nicknameTracker = st.nicknameTracker :=
      (ensureMember_preserves st pid sn).2.2.2.1
    simp only [hsid]
    by_cases hq : q = pid
    · rw [if_pos ⟨hvalid, hq⟩, hq]
      rcases ht : alookup (ensureMember st pid sn).nicknameTracker pid with _ | tr
      · rw [seedTs]
        simp only [alookup_aset_self]
      · dsimp only []
        by_cases hname : tr.currentName ≠ sn
        · rw [if_pos hname, seedTs]
          simp only [alookup_aset_self]
        · rw [if_neg hname, seedTs]
          simp only [alookup_aset_self]
    · rw [if_neg (fun hc => hq hc.2)]
      rcases ht : alookup (ensureMember st pid sn).nicknameTracker pid with _ | tr
      · rw [seedTs, seedTs]
        simp only [alookup_aset_ne _ _ _ _ hq, htrk]
      · dsimp only []
        by_cases hname : tr.currentName ≠ sn
        · rw [if_pos hname, seedTs, seedTs]
          simp only [alookup_aset_ne _ _ _ _ hq, htrk]
        · rw [if_neg hname, seedTs, seedTs]
          simp only [alookup_aset_ne _ _ _ _ hq, htrk]
  · have hvalid : isValidMessage m = false := by simp [isValidMessage, hv]
    have hstate : processMessage st m =
        { st with warnLog := st.warnLog ++ [w] } := by
      simp [processMessage, hv]
    rw [if_neg (fun hc => by rw [hvalid] at hc; exact Bool.noConfusion hc.1),
      hstate]
    rfl

theorem msgsTs_cons (m : ParsedMessage) (rest : List ParsedMessage) (pid : String) :
    msgsTs (m :: rest) pid =
      (if isValidMessage m = true ∧ m.senderPlatformId = some pid
        then m.timestamp.toList else []) ++ msgsTs rest pid := by
  by_cases hvm : isValidMessage m = true
  · by_cases hs : m.senderPlatformId = some pid
    · cases hmt : m.timestamp <;>
        simp [msgsTs, List.filter_cons, List.filterMap_cons, hvm, hs, hmt]
    · simp [msgsTs, List.filter_cons, List.filterMap_cons, hvm, hs]
  · have hvm' : isValidMessage m = false := by simpa using hvm
    simp [msgsTs, List.filter_cons, hvm']

theorem nondecreasingB_tail (t : Int) (l : List Int)
    (h : nondecreasingB (t :: l) = true) : nondecreasingB l = true := by
  cases l with
  | nil => rfl
  | cons s l2 =>
    rw [nondecreasingB, Bool.and_eq_true] at h
    exact h.2

theorem nondecreasingB_head_le (t s : Int) (l : List Int)
    (h : nondecreasingB (t :: s :: l) = true) : t ≤ s := by
  rw [nondecreasingB, Bool.and_eq_true, decide_eq_true_eq] at h
  exact h.1

theorem valid_sender_eq (m : ParsedMessage) (hv : validationError m = none) :
    m.senderPlatformId = some (m.senderPlatformId.getD "") := by
  rcases validationError_none_parts m hv with ⟨h1, _, _, _⟩
  exact (jsFalsyStr_false _ h1).1

theorem valid_timestamp_eq (m : ParsedMessage) (hv : validationError m = none) :
    m.timestamp = some (m.timestamp.getD 0) :=
  (validationError_none_parts m hv).2.2.1

theorem foldl_processMessage_sinv (msgs : List ParsedMessage)
    (future : String → List Int) :
    ∀ st : ImportState, SInv st →
      (∀ pid, nondecreasingB (seedTs st pid ++ (msgsTs msgs pid ++ future pid)) = true) →
      SInv (msgs.foldl processMessage st) ∧
        ∀ pid, nondecreasingB
          (seedTs (msgs.foldl processMessage st) pid ++ future pid) = true := by
  induction msgs with
  | nil =>
    intro st hs hts
    refine ⟨hs, fun pid => ?_⟩
    have := hts pid
    rwa [show msgsTs [] pid = [] from rfl, List.nil_append] at this
  | cons m rest ih =>
    intro st hs hts
    rcases hvv : validationError m with _ | w
    · have hvalid : isValidMessage m = true := by simp [isValidMessage, hvv]
      have hsender := valid_sender_eq m hvv
      have htsm := valid_timestamp_eq m hvv
      set pid0 := m.senderPlatformId.getD "" with hpid0
      -- the timestamp hypothesis for this one message
      have hmono : ∀ tr, alookup st.nicknameTracker pid0 = some tr →
          tr.lastSeenTs ≤ m.timestamp.getD 0 := by
        intro tr htr
        have h0 := hts pid0
        rw [msgsTs_cons, if_pos ⟨hvalid, hsender⟩, htsm] at h0
        rw [seedTs, htr] at h0
        exact nondecreasingB_head_le _ _ _ (by simpa using h0)
      have hs' : SInv (processMessage st m) := processMessage_sinv st m hs hmono
      have hts' : ∀ pid, nondecreasingB
          (seedTs (processMessage st m) pid ++ (msgsTs rest pid ++ future pid)) = true := by
        intro pid
        rw [processMessage_seedTs st m pid]
        by_cases hq : pid = pid0
        · rw [if_pos ⟨hvalid, hq⟩, hq]
          have h0 := hts pid0
          rw [msgsTs_cons, if_pos ⟨hvalid, hsender⟩, htsm] at h0
          rw [seedTs] at h0
          rcases htr : alookup st.nicknameTracker pid0 with _ | tr
          · rw [htr] at h0
            simpa using h0
          · rw [htr] at h0
            have h1 : nondecreasingB (tr.lastSeenTs :: m.timestamp.getD 0 ::
                (msgsTs rest pid0 ++ future pid0)) = true := by simpa using h0
            simpa using nondecreasingB_tail _ _ h1
        · rw [if_neg (fun hc => hq hc.2)]
          have h0 := hts pid
          rw [msgsTs_cons] at h0
          have hsne : ¬(m.senderPlatformId = some pid) := by
            rw [hsender]
            intro hc
            exact hq (Option.some_inj.mp hc).symm
          rw [if_neg (fun hc => hsne hc.2), List.nil_append] at h0
          exact h0
      rw [List.foldl_cons]
      exact ih (processMessage st m) hs' hts'
    · have hvalid : isValidMessage m = false := by simp [isValidMessage, hvv]
      have hstate : processMessage st m = { st with warnLog := st.warnLog ++
          [w] } := by
        simp [processMessage, hvv]
      have hs' : SInv (processMessage st m) := by
        rw [hstate]
        exact sinv_of_components _ st rfl rfl rfl rfl rfl hs
      have hts' : ∀ pid, nondecreasingB
          (seedTs (processMessage st m) pid ++ (msgsTs rest pid ++ future pid)) = true := by
        intro pid
        have h0 := hts pid
        have hcond : ¬(isValidMessage m = true ∧ m.senderPlatformId = some pid) := by
          intro hc
          rw [hvalid] at hc
          exact Bool.noConfusion hc.1
        rw [msgsTs_cons, if_neg hcond, List.nil_append] at h0
        rw [hstate]
        exact h0
      rw [List.foldl_cons]
      exact ih (processMessage st m) hs' hts'

/-! ### Events-level invariant fold and tracker coverage -/

theorem seedTs_congr (st' st : ImportState)
    (h : st'.nicknameTracker = st.nicknameTracker) (pid : String) :
    seedTs st' pid = seedTs st pid := by
  rw [seedTs, seedTs, h]

theorem foldl_processMember_tracker (ms : List ParsedMember) :
    ∀ st : ImportState,
      (ms.foldl processMember st).nicknameTracker = st.nicknameTracker := by
  induction ms with
  | nil => intro st; rfl
  | cons m rest ih =>
    intro st
    rw [List.foldl_cons,
      ih (processMember st m), (processMember_preserves st m).2.2.2.1]

theorem applyEvent_tracker_eq (st : ImportState) (e : ParseEvent)
    (hne : ∀ msgs, e ≠ ParseEvent.messageBatch msgs) :
    (applyEvent st e).nicknameTracker = st.nicknameTracker := by
  cases e with
  | meta m => rw [applyEvent]; split <;> rfl
  | members ms => exact foldl_processMember_tracker ms st
  | messageBatch msgs => exact absurd rfl (hne msgs)
  | progress => rfl
  | fail e => rfl

theorem applyEvent_sinv (st : ImportState) (e : ParseEvent) (h : SInv st)
    (hne : ∀ msgs, e ≠ ParseEvent.messageBatch msgs) :
    SInv (applyEvent st e) := by
  cases e with
  | meta m =>
    rw [applyEvent]
    split
    · exact h
    · exact sinv_of_components _ st rfl rfl rfl rfl rfl h
  | members ms =>
    rw [applyEvent]
    induction ms generalizing st with
    | nil => exact h
    | cons m rest ih =>
      rw [List.foldl_cons]
      exact ih (processMember st m) (processMember_sinv st m h)
        (fun msgs hc => ParseEvent.noConfusion hc)
  | messageBatch msgs => exact absurd rfl (hne msgs)
  | progress => exact h
  | fail e => exact h

theorem memberTs_cons (e : ParseEvent) (rest : List ParseEvent) (pid : String) :
    memberTs (e :: rest) pid =
      (match e with | .messageBatch ms => msgsTs ms pid | _ => []) ++
        memberTs rest pid := by
  rw [memberTs, validMessages, eventMessages_cons, List.filter_append,
    List.filterMap_append]
  cases e <;> rfl

theorem runEvents_sinv (events : List ParseEvent) :
    ∀ st : ImportState, SInv st →
      (∀ pid, nondecreasingB (seedTs st pid ++ memberTs events pid) = true) →
      SInv (runEvents st events).1 := by
  induction events with
  | nil => intro st hs _; exact hs
  | cons e rest ih =>
    intro st hs hts
    cases e with
    | fail e' => exact hs
    | messageBatch msgs =>
      have hts0 : ∀ pid, nondecreasingB
          (seedTs st pid ++ (msgsTs msgs pid ++ memberTs rest pid)) = true := by
        intro pid
        have h0 := hts pid
        rw [memberTs_cons] at h0
        simpa using h0
      rcases foldl_processMessage_sinv msgs (fun pid => memberTs rest pid) st
        hs hts0 with ⟨hs', hts'⟩
      exact ih (msgs.foldl processMessage st) hs' hts'
    | meta m =>
      refine ih _ (applyEvent_sinv st _ hs (by intro msgs h; exact ParseEvent.noConfusion h)) ?_
      intro pid
      rw [seedTs_congr _ st (applyEvent_tracker_eq st _
        (by intro msgs h; exact ParseEvent.noConfusion h)) pid]
      have h0 := hts pid
      rw [memberTs_cons] at h0
      simpa using h0
    | members ms =>
      refine ih _ (applyEvent_sinv st _ hs (by intro msgs h; exact ParseEvent.noConfusion h)) ?_
      intro pid
      rw [seedTs_congr _ st (applyEvent_tracker_eq st _
        (by intro msgs h; exact ParseEvent.noConfusion h)) pid]
      have h0 := hts pid
      rw [memberTs_cons] at h0
      simpa using h0
    | progress =>
      refine ih _ (applyEvent_sinv st _ hs (by intro msgs h; exact ParseEvent.noConfusion h)) ?_
      intro pid
      rw [seedTs_congr _ st (applyEvent_tracker_eq st _
        (by intro msgs h; exact ParseEvent.noConfusion h)) pid]
      have h0 := hts pid
      rw [memberTs_cons] at h0
      simpa using h0

theorem processMessage_tracker_isSome (st : ImportState) (m : ParsedMessage)
    (q : String) (h : (alookup st.nicknameTracker q).isSome = true) :
    (alookup (processMessage st m).nicknameTracker q).isSome = true := by
  rcases hv : validationError m with _ | w
  · simp only [processMessage, hv]
    set pid := m.senderPlatformId.getD "" with hpiddef
    set sn := (jsOrStr m.senderName m.senderPlatformId).getD "" with hsndef
    obtain ⟨sid, hsid⟩ :=
      Option.isSome_iff_exists.mp (ensureMember_lookup_isSome st pid sn)
    have htrk : (ensureMember st pid sn).nicknameTracker = st.nicknameTracker :=
      (ensureMember_preserves st pid sn).2.2.2.1
    simp only [hsid]
    rcases ht : alookup (ensureMember st pid sn).nicknameTracker pid with _ | tr
    · apply alookup_aset_isSome
      rw [htrk]
      exact h
    · dsimp only []
      by_cases hname : tr.currentName ≠ sn
      · rw [if_pos hname]
        apply alookup_aset_isSome
        rw [htrk]
        exact h
      · rw [if_neg hname]
        apply alookup_aset_isSome
        rw [htrk]
        exact h
  · simp only [processMessage, hv]
    exact h

theorem processMessage_tracker_self (st : ImportState) (m : ParsedMessage)
    (hv : validationError m = none) :
    (alookup (processMessage st m).nicknameTracker
      (m.senderPlatformId.getD "")).isSome = true := by
  have hvalid : isValidMessage m = true := by simp [isValidMessage, hv]
  cases hl : alookup (processMessage st m).nicknameTracker
      (m.senderPlatformId.getD "") with
  | some tr => rfl
  | none =>
    exfalso
    have h2 := processMessage_seedTs st m (m.senderPlatformId.getD "")
    rw [if_pos ⟨hvalid, rfl⟩, seedTs, hl] at h2
    simp at h2

theorem foldl_msgs_covers (msgs : List ParsedMessage) :
    ∀ (st : ImportState) (pid : String),
      ((∃ m ∈ msgs, validationError m = none ∧ m.senderPlatformId = some pid) ∨
        (alookup st.nicknameTracker pid).isSome = true) →
      (alookup ((msgs.foldl processMessage st).nicknameTracker) pid).isSome = true := by
  induction msgs with
  | nil =>
    intro st pid h
    rcases h with ⟨m, hm, _⟩ | h
    · simp at hm
    · exact h
  | cons m rest ih =>
    intro st pid h
    rw [List.foldl_cons]
    rcases h with ⟨m', hm', hv', hs'⟩ | h
    · rcases List.mem_cons.mp hm' with hm0 | hm0
      · apply ih (processMessage st m) pid
        right
        subst hm0
        have heq : m'.senderPlatformId.getD "" = pid := by rw [hs']; rfl
        rw [← heq]
        exact processMessage_tracker_self st m' hv'
      · exact ih (processMessage st m) pid (Or.inl ⟨m', hm0, hv', hs'⟩)
    · exact ih (processMessage st m) pid
        (Or.inr (processMessage_tracker_isSome st m pid h))

theorem validSenders_cons (e : ParseEvent) (rest : List ParseEvent) :
    validSenders (e :: rest) =
      (match e with
        | .messageBatch ms =>
          (ms.filter (fun m => isValidMessage m)).filterMap
            (fun m => m.senderPlatformId)
        | _ => []) ++ validSenders rest := by
  rw [validSenders, validMessages, eventMessages_cons, List.filter_append,
    List.filterMap_append]
  cases e <;> rfl

theorem isValid_validationError (m : ParsedMessage)
    (h : isValidMessage m = true) : validationError m = none := by
  rw [isValidMessage] at h
  exact Option.isNone_iff_eq_none.mp (by simpa using h)

theorem foldl_events_covers (events : List ParseEvent) :
    ∀ (st : ImportState) (pid : String),
      (pid ∈ validSenders events ∨
        (alookup st.nicknameTracker pid).isSome = true) →
      (alookup ((events.foldl applyEvent st).nicknameTracker) pid).isSome = true := by
  induction events with
  | nil =>
    intro st pid h
    rcases h with h | h
    · simp [validSenders, validMessages, eventMessages] at h
    · exact h
  | cons e rest ih =>
    intro st pid h
    rw [List.foldl_cons]
    rcases h with h | h
    · rw [validSenders_cons] at h
      rcases List.mem_append.mp h with h | h
      · cases e with
        | messageBatch msgs =>
          apply ih _ pid
          right
          rcases List.mem_filterMap.mp h with ⟨m, hm, hsm⟩
          rcases List.mem_filter.mp hm with ⟨hmem, hval⟩
          rw [applyEvent]
          exact foldl_msgs_covers msgs st pid
            (Or.inl ⟨m, hmem, isValid_validationError m (by simpa using hval),
              hsm⟩)
        | meta m => simp at h
        | members ms => simp at h
        | progress => simp at h
        | fail e' => simp at h
      · exact ih _ pid (Or.inl h)
    · apply ih _ pid
      right
      cases e with
      | messageBatch msgs =>
        rw [applyEvent]
        exact foldl_msgs_covers msgs st pid (Or.inr h)
      | meta m =>
        rw [applyEvent_tracker_eq st _ (fun msgs hc => ParseEvent.noConfusion hc)]
        exact h
      | members ms =>
        rw [applyEvent_tracker_eq st _ (fun msgs hc => ParseEvent.noConfusion hc)]
        exact h
      | progress => exact h
      | fail e' => exact h

/-! ### The final name write-back keeps platform ids, ids and history -/

theorem foldl_updateMemberName_members :
    ∀ (l : List (String × NickTracker)) (db : DbState),
      ∃ g : MemberRow → MemberRow,
        (l.foldl (fun db p => db.updateMemberName p.2.currentName p.1) db).members =
          db.members.map g ∧
        ∀ r, (g r).platform_id = r.platform_id ∧ (g r).id = r.id := by
  intro l
  induction l with
  | nil =>
    intro db
    exact ⟨id, (List.map_id _).symm, fun r => ⟨rfl, rfl⟩⟩
  | cons p l ih =>
    intro db
    rcases ih (db.updateMemberName p.2.currentName p.1) with ⟨g', hmem, hprop⟩
    refine ⟨g' ∘ (fun r => if r.platform_id = p.1
      then { r with name := p.2.currentName } else r), ?_, ?_⟩
    · rw [List.foldl_cons, hmem, DbState.updateMemberName, ← List.map_map]
    · intro r
      rcases hprop (if r.platform_id = p.1
        then { r with name := p.2.currentName } else r) with ⟨h1, h2⟩
      constructor
      · rw [Function.comp, h1]; split <;> rfl
      · rw [Function.comp, h2]; split <;> rfl

theorem finalize_members (st : ImportState) :
    ∃ g : MemberRow → MemberRow,
      (finalizeMemberNames st).db.members = st.db.members.map g ∧
      ∀ r, (g r).platform_id = r.platform_id ∧ (g r).id = r.id := by
  rw [finalizeMemberNames]
  exact foldl_updateMemberName_members st.nicknameTracker st.db

/-! ### LedgerOk gives the claim's two observable facts -/

theorem ledgerOk_openCount (rows : List HistoryRow) (tr : NickTracker)
    (h : LedgerOk rows tr) : openCount rows = 1 := by
  rcases h.shape with ⟨closed, lastRow, hrows, hend, _, _, hclosed⟩
  rw [openCount, hrows, List.countP_append]
  have h0 : closed.countP (fun r => decide (r.end_ts = none)) = 0 := by
    rw [List.countP_eq_zero]
    intro r hr
    have := hclosed r hr
    simp only [decide_eq_true_eq]
    intro hc
    rw [hc] at this
    simp at this
  rw [h0]
  simp [hend]

theorem ledgerOk_contiguous (rows : List HistoryRow) (tr : NickTracker)
    (h : LedgerOk rows tr) : contiguousB rows = true := by
  rw [contiguousB, sortByStart_of_sorted rows h.sorted]
  exact h.chained

theorem memberTs_nil_of_not_sender (events : List ParseEvent) (pid : String)
    (h : pid ∉ validSenders events) : memberTs events pid = [] := by
  rw [memberTs]
  rw [List.filterMap_eq_nil_iff]
  intro m hm
  by_cases hs : m.senderPlatformId = some pid
  · exact absurd (by rw [validSenders]; exact List.mem_filterMap.mpr ⟨m, hm, hs⟩) h
  · rw [if_neg hs]

/-! ### C4 — the nickname-history invariant -/

/-- C4 (amended): after a committed import whose members' valid
messages arrive with non-decreasing timestamps, every member observed
as the sender of at least one valid message has exactly one
`member_name_history` row with `end_ts IS NULL` and its rows are
contiguous when ordered by `start_ts`; moreover, in each step of the
loop, a change of observed name closes the open interval at the new
message's timestamp and opens a new one with the new name, while an
unchanged name writes no history row. -/
theorem nickname_history_ledger (events : List ParseEvent)
    (hf : hasFail events = false) (hmono : perMemberMonoB events = true) :
    (∃ db, (streamImportModel none events).committedDb = some db ∧
      ∀ pid ∈ validSenders events,
        ∃ mid, db.getMemberId pid = some mid ∧
          openCount (rowsOfMember db mid) = 1 ∧
          contiguousB (rowsOfMember db mid) = true) ∧
    (∀ (st : ImportState) (m : ParsedMessage) (pid : String) (sid : Nat)
        (ts : Int) (tr : NickTracker),
      validationError m = none →
      m.senderPlatformId = some pid →
      m.timestamp = some ts →
      alookup st.memberIdMap pid = some sid →
      alookup st.nicknameTracker pid = some tr →
      ((tr.currentName = (jsOrStr m.senderName m.senderPlatformId).getD "" →
          (processMessage st m).db.history = st.db.history) ∧
       (tr.currentName ≠ (jsOrStr m.senderName m.senderPlatformId).getD "" →
          (processMessage st m).db.history =
            (st.db.updateNameHistoryEndTs ts sid).history ++
              [⟨sid, (jsOrStr m.senderName m.senderPlatformId).getD "", ts, none⟩]))) := by
  constructor
  · have hrun := runEvents_no_fail events ImportState.init hf
    have hinit_ts : ∀ pid, nondecreasingB
        (seedTs ImportState.init pid ++ memberTs events pid) = true := by
      intro pid
      rw [show seedTs ImportState.init pid = [] from rfl, List.nil_append]
      by_cases hmem : pid ∈ validSenders events
      · exact List.all_eq_true.mp hmono pid hmem
      · rw [memberTs_nil_of_not_sender events pid hmem]
        rfl
    have hsinv0 : SInv (runEvents ImportState.init events).1 :=
      runEvents_sinv events ImportState.init sinv_init hinit_ts
    rw [hrun] at hsinv0
    refine ⟨(finalizeMemberNames (events.foldl applyEvent ImportState.init)).db,
      by simp only [streamImportModel, hrun], ?_⟩
    intro pid hpid
    have hcov : (alookup ((events.foldl applyEvent
        ImportState.init).nicknameTracker) pid).isSome = true :=
      foldl_events_covers events ImportState.init pid (Or.inl hpid)
    obtain ⟨tr, htr⟩ := Option.isSome_iff_exists.mp hcov
    obtain ⟨mid, hmid⟩ :=
      Option.isSome_iff_exists.mp (hsinv0.tracker_map pid tr htr)
    have hled := hsinv0.ledger pid tr mid htr hmid
    rcases hsinv0.map_mem pid mid hmid with ⟨r0, hr0, hr01, hr02⟩
    rcases finalize_members (events.foldl applyEvent ImportState.init)
      with ⟨g, hgm, hgp⟩
    have hfin_inv : DbInv (finalizeMemberNames
        (events.foldl applyEvent ImportState.init)).db :=
      finalize_dbInv _ hsinv0.dbinv
    have hhist : (finalizeMemberNames
        (events.foldl applyEvent ImportState.init)).db.history =
        (events.foldl applyEvent ImportState.init).db.history :=
      (finalize_preserves _).2.1
    have hrows_eq : rowsOfMember (finalizeMemberNames
        (events.foldl applyEvent ImportState.init)).db mid =
        rowsOfMember (events.foldl applyEvent ImportState.init).db mid := by
      rw [rowsOfMember, rowsOfMember, hhist]
    refine ⟨mid, ?_, ?_, ?_⟩
    · have hmemg : g r0 ∈ (finalizeMemberNames
          (events.foldl applyEvent ImportState.init)).db.members := by
        rw [hgm]
        exact List.mem_map_of_mem g hr0
      have hget := getMemberId_of_mem _ hfin_inv.pid_nodup (g r0) hmemg pid
        (by rw [(hgp r0).1, hr01])
      rw [hget, (hgp r0).2, hr02]
    · rw [hrows_eq]
      exact ledgerOk_openCount _ tr hled
    · rw [hrows_eq]
      exact ledgerOk_contiguous _ tr hled
  · intro st m pid sid ts tr hv hsender hts0 hmap htr
    have hpid_eq : m.senderPlatformId.getD "" = pid := by rw [hsender]; rfl
    have hts_eq : m.timestamp.getD 0 = ts := by rw [hts0]; rfl
    simp only [processMessage, hv]
    have hens : ensureMember st (m.senderPlatformId.getD "")
        ((jsOrStr m.senderName m.senderPlatformId).getD "") = st := by
      rw [ensureMember, if_pos]
      rw [hpid_eq, hmap]
      rfl
    rw [hens, hpid_eq, hmap]
    simp only [htr]
    constructor
    · intro hname_eq
      rw [if_neg (fun hc => hc hname_eq)]
      rfl
    · intro hname_ne
      rw [if_pos hname_ne, hts_eq]
      rfl

/-- Two messages of the same member whose timestamps go backwards while
the name changes: the name change at `ts = 50` closes the interval that
began at `ts = 100`, producing an inverted interval and an open row that
precedes it in `start_ts` order. -/
def ceEvents : List ParseEvent :=
  [ParseEvent.messageBatch
    [⟨some "A", some "x", some 100, some 0, some "hello"⟩,
     ⟨some "A", some "y", some 50, some 0, some "world"⟩]]

/-- C4 counterexample: a committed import (out-of-order timestamps are
legal input — the spec requires only "monotonic-ish") after which member
"A", the sender of two valid messages, has a `member_name_history`
ledger that is NOT contiguous when ordered by `start_ts`. -/
theorem nickname_history_counterexample :
    (streamImportModel none ceEvents).result.success = true ∧
    "A" ∈ validSenders ceEvents ∧
    (streamImportModel none ceEvents).committedDb.map
      (fun db => db.getMemberId "A") = some (some 1) ∧
    (streamImportModel none ceEvents).committedDb.map
      (fun db => contiguousB (rowsOfMember db 1)) = some false := by
  refine ⟨by decide, by decide, by decide, by decide⟩

/-! ### Witnesses -/

def c4WitnessEvents : List ParseEvent :=
  [ParseEvent.members [⟨"A", "alice", none⟩],
   ParseEvent.messageBatch
    [⟨some "A", some "x", some 1, some 0, some "m1"⟩,
     ⟨some "A", some "x", some 2, some 0, none⟩,
     ⟨some "A", some "y", some 3, some 0, none⟩,
     ⟨some "B", some "bob", some 4, some 0, none⟩]]

theorem nickname_history_ledger_witness :
    ∃ db mid, (streamImportModel none c4WitnessEvents).committedDb = some db ∧
      db.getMemberId "A" = some mid ∧
      openCount (rowsOfMember db mid) = 1 ∧
      contiguousB (rowsOfMember db mid) = true := by
  have h := nickname_history_ledger c4WitnessEvents (by decide) (by decide)
  rcases h.1 with ⟨db, hdb, hall⟩
  rcases hall "A" (by decide) with ⟨mid, h1, h2, h3⟩
  exact ⟨db, mid, hdb, h1, h2, h3⟩

def c1Events : List ParseEvent :=
  [ParseEvent.meta ⟨"group chat", "qq", "group"⟩,
   ParseEvent.messageBatch [⟨some "A", some "x", some 1, some 0, none⟩],
   ParseEvent.fail "disk io error"]

theorem atomic_rollback_witness :
    (streamImportModel none c1Events).result.success = false ∧
    ((streamImportModel none c1Events).result.error).isSome = true ∧
    (streamImportModel none c1Events).storeCreated = true ∧
    (streamImportModel none c1Events).dbFileExists = false ∧
    (streamImportModel none c1Events).committedDb = none :=
  atomic_rollback_on_failure none c1Events "disk io error"
    (Or.inl rfl) (by decide)

def c2PreviewEvents : List ParseEvent :=
  [ParseEvent.messageBatch
    [⟨some "A", some "x", some 1, some 0, some "a"⟩,
     ⟨some "B", some "y", some 2, some 0, some "b"⟩,
     ⟨some "A", some "x", some 3, some 0, some "c"⟩]]

def c2ImportEvents : List ParseEvent :=
  [ParseEvent.messageBatch
    [⟨some "A", some "x", some 1, some 0, some "a"⟩,
     ⟨some "B", some "y", some 2, some 0, some "b"⟩],
   ParseEvent.messageBatch
    [⟨some "A", some "x", some 3, some 0, some "c"⟩]]

theorem preview_import_count_witness :
    ∃ db, (streamImportModel none c2ImportEvents).committedDb = some db ∧
      db.messages.length =
        (runPreview FileInfoState.init c2PreviewEvents).1.messageCount :=
  preview_import_count_consistent c2PreviewEvents c2ImportEvents
    (by decide) (by decide) (by decide) (by decide)

def c3Events : List ParseEvent :=
  [ParseEvent.messageBatch
    [⟨some "A", some "x", some 1, some 0, some "ok"⟩,
     ⟨none, some "ghost", some 2, some 0, some "no sender"⟩,
     ⟨some "B", some "y", some 3, some 0, some "ok2"⟩,
     ⟨some "C", some "z", none, some 0, some "no ts"⟩]]

theorem invalid_records_dropped_witness :
    (streamImportModel none c3Events).result.success = true ∧
    ∃ db, (streamImportModel none c3Events).committedDb = some db ∧
      db.messages.length =
        (eventMessages c3Events).countP (fun m => isValidMessage m) ∧
      (streamImportModel none c3Events).warnLog.length =
        (eventMessages c3Events).countP (fun m => !isValidMessage m) :=
  invalid_records_dropped_not_fatal c3Events (by decide)

theorem preprocess_failure_witness :
    (preprocessQQJson "/tmp" ⟨["/data/in.json"], []⟩ "slim_1.json"
        ([PreItem.record, PreItem.record] ++
          PreItem.ioError "Unexpected token" :: [PreItem.record])).outcome =
      Except.error "Unexpected token" ∧
    (preprocessQQJson "/tmp" ⟨["/data/in.json"], []⟩ "slim_1.json"
        ([PreItem.record, PreItem.record] ++
          PreItem.ioError "Unexpected token" :: [PreItem.record])).fs.existsSync
      (getTempDir "/tmp" ++ "/" ++ "slim_1.json") = false ∧
    (streamImportModel (some (Except.error "Unexpected token")) []).result.success = false ∧
    (streamImportModel (some (Except.error "Unexpected token")) []).result.error =
      some (preFailTag ++ "Unexpected token") ∧
    (streamImportModel (some (Except.error "Unexpected token")) []).storeCreated = false ∧
    (streamImportModel (some (Except.error "Unexpected token")) []).committedDb = none :=
  preprocess_failure_aborts_and_propagates "/tmp" ⟨["/data/in.json"], []⟩
    "slim_1.json" [PreItem.record, PreItem.record] [PreItem.record]
    "Unexpected token" [] (by decide)

theorem coordination_timeout_witness :
    (runCoord [CoordEvent.progress, CoordEvent.terminal true "ok"]).settlements.length ≤ 1 ∧
    (runCoord ([CoordEvent.progress] ++ CoordEvent.timerFire ::
      [CoordEvent.terminal true "late"])).settlements =
      [Settlement.rejected timeoutErrorText] ∧
    (runCoord ([CoordEvent.progress] ++ CoordEvent.timerFire ::
      [CoordEvent.terminal true "late"])).pending = false :=
  coordination_timeout_exactly_once
    [CoordEvent.progress, CoordEvent.terminal true "ok"]
    [CoordEvent.progress] [CoordEvent.terminal true "late"] (by decide)

def c9Events : List ParseEvent :=
  [ParseEvent.members [⟨"A", "a-one", none⟩, ⟨"A", "a-two", some "nick"⟩],
   ParseEvent.messageBatch
    [⟨some "A", some "a-three", some 5, some 0, none⟩,
     ⟨some "A", some "a-four", some 6, some 0, none⟩]]

theorem member_upsert_idempotent_witness :
    ∃ db, (streamImportModel none c9Events).committedDb = some db ∧
      db.members.countP (fun r => r.platform_id = "A") ≤ 1 := by
  cases hdb : (streamImportModel none c9Events).committedDb with
  | none => exact absurd hdb (by decide)
  | some db => exact ⟨db, rfl, member_upsert_idempotent c9Events "A" db hdb⟩

end ChatLab
